import Mathlib

/-!
Shallow embedding of the `go-game` incremental-game simulation engine
(`src/game.go`, `src/config.go`).

Modelling conventions:
* Go `int` is modelled as `Int` (no overflow is relevant to the claims);
  Go integer division truncates toward zero, modelled by `Int.tdiv`.
* `time.Time` / `time.Duration` are modelled as `Int` (nanoseconds);
  `time.Time{}` is `0`, `now.Add(d)` is `now + d`, `a.Before(b)` is `a < b`.
* Go `map[string]int` is modelled as an association list with the same
  observable semantics: lookup of an absent key yields the zero value `0`,
  insertion overwrites the existing entry.  Iteration over a map is
  modelled as iteration over the list; since a Go map has unique keys the
  theorems carry `Nodup` hypotheses on key lists where iteration order or
  multiplicity could matter.
* `float64` arithmetic in `scaledCost` (`math.Pow`, `math.Ceil`) is
  modelled by exact rational arithmetic over `ℚ` with `Int.ceil`.
-/

namespace GoGame

/-- Association-list model of Go's `map[string]int`. -/
abbrev Rmap := List (String × Int)

/-- Reading a Go map: `m[k]` returns the stored value, or the zero value `0`
when the key is absent. -/
def getD (m : Rmap) (k : String) : Int :=
  match m.find? (fun e => e.1 == k) with
  | some e => e.2
  | none => 0

/-- Writing a Go map: `m[k] = v` overwrites the entry in place, or appends a
new entry when the key is absent. -/
def setK (m : Rmap) (k : String) (v : Int) : Rmap :=
  match m with
  | [] => [(k, v)]
  | e :: rest => if e.1 == k then (k, v) :: rest else e :: setK rest k v

/-- `m[k] += v`, Go's read-modify-write on a map entry. -/
def addK (m : Rmap) (k : String) (v : Int) : Rmap :=
  setK m k (getD m k + v)

/-- Generic last-occurrence lookup: Go builds lookup maps by inserting list
entries in order, so a duplicated key resolves to the **last** entry. -/
def lookupLast {α : Type} (key : α → String) (l : List α) (k : String) : Option α :=
  (l.reverse).find? (fun e => key e == k)

/-- `config.go`: per-worker definition (`WorkerConfig`). -/
structure WorkerConfig where
  key : String
  workerName : String
  produces : String
  prodRate : Int
  prodQuant : Int
  upgradeMult : ℚ
  autoTier : Int
  level : Int
  cost : Rmap
  deriving Repr, DecidableEq

/-- `config.go`: per-industry definition (`IndustryConfig`). -/
structure IndustryConfig where
  key : String
  name : String
  resource : String
  workers : List WorkerConfig
  deriving Repr, DecidableEq

/-- `config.go`: passive production definition (`PassiveProductionSpec`). -/
structure PassiveProductionSpec where
  resource : String
  prodRate : Int
  prodQuant : Int
  deriving Repr, DecidableEq

/-- `config.go`: the whole configuration (`GameConfig`). -/
structure GameConfig where
  startingResources : Rmap
  startingProduction : List PassiveProductionSpec
  industries : List IndustryConfig
  deriving Repr, DecidableEq

/-- `game.go`: live per-worker state (`WorkerState`). -/
structure WorkerState where
  definition : WorkerConfig
  owned : Int
  tier : Int
  running : Bool
  endsAt : Int
  auto : Bool
  deriving Repr, DecidableEq

/-- `game.go`: live per-industry state (`IndustryState`). -/
structure IndustryState where
  key : String
  name : String
  resource : String
  workers : List WorkerState
  deriving Repr, DecidableEq

/-- `game.go`: live passive producer state (`PassiveProductionState`). -/
structure PassiveProductionState where
  definition : PassiveProductionSpec
  nextAt : Int
  deriving Repr, DecidableEq

/-- `game.go`: the aggregate live state (`GameState`). -/
structure GameState where
  industries : List IndustryState
  resources : Rmap
  production : List PassiveProductionState
  buyModeMax : Bool
  devMode : Bool
  deriving Repr, DecidableEq

/-- `game.go`: serialized per-worker record (`saveWorker`). -/
structure saveWorker where
  key : String
  owned : Int
  tier : Int
  auto : Bool
  deriving Repr, DecidableEq

/-- `game.go`: serialized per-industry record (`saveIndustry`). -/
structure saveIndustry where
  key : String
  workers : List saveWorker
  deriving Repr, DecidableEq

/-- `game.go`: serialized passive producer record (`saveProduction`). -/
structure saveProduction where
  nextAt : Int
  deriving Repr, DecidableEq

/-- `game.go`: the serialized snapshot (`saveGame`).  `resources` is an
`Option` because `applySnapshot` distinguishes a `nil` map (absent JSON
field) from a present one. -/
structure saveGame where
  industries : List saveIndustry
  resources : Option Rmap
  production : List saveProduction
  buyModeMax : Bool
  devMode : Bool
  savedAt : Int
  version : Int
  deriving Repr, DecidableEq

/-- `game.go` `canAfford`: every cost entry must be covered by the current
balance (absent balance reads as `0`). -/
def canAfford (cost : Rmap) (resources : Rmap) : Bool :=
  cost.all (fun e => !(getD resources e.1 < e.2))

/-- `game.go` `maxAffordable`: minimum over the positive cost entries of
`resources[r] / amount` (Go division truncates toward zero); the
`math.MaxInt` sentinel (no positive entry at all) yields `0`. -/
def maxAffordable (cost : Rmap) (resources : Rmap) : Int :=
  let limit := cost.foldl
    (fun (limit : Option Int) (e : String × Int) =>
      if e.2 ≤ 0 then limit
      else
        let q := Int.tdiv (getD resources e.1) e.2
        match limit with
        | none => some q
        | some l => some (min l q))
    (none : Option Int)
  match limit with
  | none => 0
  | some l => l

/-- `game.go` `scaledCost`: each base amount is multiplied by
`multiplier ^ max (tier - 1) 0` and rounded up to the next integer. -/
def scaledCost (base : Rmap) (multiplier : ℚ) (tier : Int) : Rmap :=
  let factor : ℚ := multiplier ^ (max (tier - 1) 0).toNat
  base.map (fun e => (e.1, Int.ceil ((e.2 : ℚ) * factor)))

/-- `game.go` `findWorkerIndex`: first index whose definition key matches. -/
def findWorkerIndex (workers : List WorkerState) (key : String) : Option Nat :=
  workers.findIdx? (fun w => w.definition.key == key)

example : getD [("coins", 7)] "coins" = 7 := by decide
example : getD [("coins", 7)] "wood" = 0 := by decide
example : canAfford [("coins", 5)] [("coins", 5)] = true := by decide
example : canAfford [("coins", 5), ("wood", 1)] [("coins", 9)] = false := by decide
example : maxAffordable [("coins", 3)] [("coins", 10)] = 3 := by decide
example : maxAffordable [("coins", 0)] [("coins", 10)] = 0 := by decide
example : maxAffordable [("coins", 3), ("wood", 2)] [("coins", 10), ("wood", 5)] = 2 := by
  decide
example : scaledCost [("coins", 10)] 2 1 = [("coins", 10)] := by
  norm_num [scaledCost]
example : scaledCost [("coins", 10)] 2 2 = [("coins", 20)] := by
  norm_num [scaledCost]
example : scaledCost [("coins", 10)] (3/2) 2 = [("coins", 15)] := by
  norm_num [scaledCost]
example : scaledCost [("coins", 10)] (11/10) 2 = [("coins", 11)] := by
  norm_num [scaledCost]

/-- Replace the element at index `i` (out-of-range leaves the list alone;
in the program every index used is in range). -/
def modifyAt {α : Type} (l : List α) (i : Nat) (f : α → α) : List α :=
  match l.get? i with
  | none => l
  | some x => l.set i (f x)

/-- `game.go` `buildPassiveProduction`: each producer is armed one interval
after the current instant. -/
def buildPassiveProduction (now : Int) (defs : List PassiveProductionSpec) :
    List PassiveProductionState :=
  defs.map (fun d => { definition := d, nextAt := now + d.prodRate })

/-- `game.go` `BuildGame`: first worker of each industry starts owned, every
tier starts at 1; more than 5 industries is rejected. -/
def buildGame (now : Int) (cfg : GameConfig) : Option GameState :=
  let industries := cfg.industries.map (fun ind =>
    ({ key := ind.key
       name := ind.name
       resource := ind.resource
       workers := ind.workers.enum.map (fun ie =>
         { definition := ie.2
           owned := if ie.1 == 0 then (1 : Int) else 0
           tier := 1
           running := false
           endsAt := 0
           auto := false }) } : IndustryState))
  if industries.length > 5 then none
  else some
    { industries := industries
      resources := cfg.startingResources
      production := buildPassiveProduction now cfg.startingProduction
      buyModeMax := false
      devMode := false }

/-- `game.go` `applyProduction` for the worker at index `j`: production goes
to a same-industry worker when the produced key names one, otherwise to the
resource ledger (the two ledger branches of the source credit the same key). -/
def applyProduction (industryResource : String) (ws : List WorkerState) (j : Nat)
    (res : Rmap) : List WorkerState × Rmap :=
  match ws.get? j with
  | none => (ws, res)
  | some w =>
    if w.owned == 0 then (ws, res)
    else
      let produced := w.definition.prodQuant * w.owned
      match findWorkerIndex ws w.definition.produces with
      | some t => (modifyAt ws t (fun tw => { tw with owned := tw.owned + produced }), res)
      | none =>
        if w.definition.produces == industryResource then
          (ws, addK res industryResource produced)
        else
          (ws, addK res w.definition.produces produced)

/-- One iteration of `Update`'s inner worker loop (`game.go` lines 113-131):
auto-restart guard, then the cycle-completion guard. -/
def stepWorker (now : Int) (industryResource : String)
    (acc : List WorkerState × Rmap) (j : Nat) : List WorkerState × Rmap :=
  match acc.1.get? j with
  | none => (acc.1, acc.2)
  | some w =>
    let p : List WorkerState × WorkerState :=
      if w.auto = true ∧ w.running = false ∧ 0 < w.owned then
        (acc.1.set j { w with running := true, endsAt := now + w.definition.prodRate },
         { w with running := true, endsAt := now + w.definition.prodRate })
      else (acc.1, w)
    if p.2.running = false then (p.1, acc.2)
    else if now < p.2.endsAt then (p.1, acc.2)
    else
      let pr := applyProduction industryResource p.1 j acc.2
      match pr.1.get? j with
      | none => pr
      | some w2 =>
        if w2.auto = true then
          (pr.1.set j { w2 with running := true, endsAt := now + w2.definition.prodRate }, pr.2)
        else
          (pr.1.set j { w2 with running := false }, pr.2)

/-- `Update`'s worker loop over one industry. -/
def updateIndustry (now : Int) (ind : IndustryState) (res : Rmap) :
    IndustryState × Rmap :=
  let p := (List.range ind.workers.length).foldl (stepWorker now ind.resource)
    (ind.workers, res)
  ({ ind with workers := p.1 }, p.2)

/-- The catch-up loop of `PassiveProductionState.apply`: fire and advance
`nextAt` by one interval until `nextAt` is strictly after `now`.  Terminates
because the interval is positive. -/
def ploop (resource : String) (rate quant now : Int) (hrate : 0 < rate)
    (nextAt : Int) (res : Rmap) : Int × Rmap :=
  if now < nextAt then (nextAt, res)
  else ploop resource rate quant now hrate (nextAt + rate) (addK res resource quant)
termination_by (now + 1 - nextAt).toNat
decreasing_by
  simp_wf
  omega

/-- `game.go` `PassiveProductionState.apply`: no-op before the next-fire
instant or when the interval or quantity is non-positive, otherwise the
catch-up loop. -/
def papply (now : Int) (p : PassiveProductionState) (res : Rmap) :
    PassiveProductionState × Rmap :=
  if now < p.nextAt then (p, res)
  else if h : p.definition.prodRate ≤ 0 ∨ p.definition.prodQuant ≤ 0 then (p, res)
  else
    let r := ploop p.definition.resource p.definition.prodRate p.definition.prodQuant
      now (by omega) p.nextAt res
    ({ p with nextAt := r.1 }, r.2)

/-- Sequentially map a resource-threading action over a list (Go loops that
mutate the shared `g.Resources` map while rebuilding each element). -/
def mapRes {α : Type} (f : α → Rmap → α × Rmap) : List α → Rmap → List α × Rmap
  | [], res => ([], res)
  | x :: xs, res =>
    let p := f x res
    let q := mapRes f xs p.2
    (p.1 :: q.1, q.2)

/-- `game.go` `Update`: passive producers first, then every industry's
worker loop. -/
def update (now : Int) (g : GameState) : GameState :=
  let pp := mapRes (papply now) g.production g.resources
  let ii := mapRes (fun ind r => updateIndustry now ind r) g.industries pp.2
  { g with production := pp.1, industries := ii.1, resources := ii.2 }

/-- Iterate the passive leg of successive `Update` calls over a schedule of
instants. -/
def runPassive : List Int → PassiveProductionState → Rmap → PassiveProductionState × Rmap
  | [], p, res => (p, res)
  | t :: ts, p, res => runPassive ts (papply t p res).1 (papply t p res).2

/-- Write back the worker at position `(i, j)`. -/
def setWorker (g : GameState) (i j : Nat) (w : WorkerState) : GameState :=
  { g with industries :=
      modifyAt g.industries i (fun ind => { ind with workers := ind.workers.set j w }) }

/-- `game.go` `StartRun`. -/
def startRun (industryIndex workerIndex : Nat) (now : Int) (g : GameState) :
    GameState × String :=
  match g.industries.get? industryIndex with
  | none => (g, "")
  | some ind =>
    match ind.workers.get? workerIndex with
    | none => (g, "")
    | some w =>
      if w.owned == 0 then (g, "need at least 1 worker")
      else if w.running = true then (g, "already running")
      else
        (setWorker g industryIndex workerIndex
          { w with running := true, endsAt := now + w.definition.prodRate },
         "cycle started")

/-- Debit `count` copies of every cost entry from the ledger. -/
def debit (cost : Rmap) (count : Int) (res : Rmap) : Rmap :=
  cost.foldl (fun r (e : String × Int) => addK r e.1 (-(e.2 * count))) res

/-- `game.go` `BuyWorker`.  The `chosen` value mirrors the source's count
selection including the early `cannot afford` return of the plain non-dev
branch (`none` = that early return). -/
def buyWorker (industryIndex workerIndex : Nat) (g : GameState) :
    GameState × String :=
  match g.industries.get? industryIndex with
  | none => (g, "")
  | some ind =>
    match ind.workers.get? workerIndex with
    | none => (g, "")
    | some w =>
      let cost := w.definition.cost
      let chosen : Option Int :=
        if g.devMode = true then
          some (if g.buyModeMax = true then
                  let c := maxAffordable cost g.resources
                  if c < 1 then 1 else c
                else 1)
        else if g.buyModeMax = true then some (maxAffordable cost g.resources)
        else if canAfford cost g.resources = false then none
        else some 1
      match chosen with
      | none => (g, "cannot afford")
      | some count =>
        if count ≤ 0 then (g, "cannot afford")
        else
          let g1 := if g.devMode = true then g
            else { g with resources := debit cost count g.resources }
          (setWorker g1 industryIndex workerIndex { w with owned := w.owned + count },
           "bought " ++ toString count)

/-- `game.go` `UpgradeWorker`. -/
def upgradeWorker (industryIndex workerIndex : Nat) (g : GameState) :
    GameState × String :=
  match g.industries.get? industryIndex with
  | none => (g, "")
  | some ind =>
    match ind.workers.get? workerIndex with
    | none => (g, "")
    | some w =>
      let cost := scaledCost w.definition.cost w.definition.upgradeMult w.tier
      if g.devMode = false ∧ canAfford cost g.resources = false then
        (g, "cannot afford upgrade")
      else
        let g1 := if g.devMode = true then g
          else { g with resources := debit cost 1 g.resources }
        let newTier := w.tier + 1
        let newAuto :=
          if 0 < w.definition.autoTier ∧ w.definition.autoTier ≤ newTier then true
          else w.auto
        (setWorker g1 industryIndex workerIndex { w with tier := newTier, auto := newAuto },
         "upgraded")

/-- The per-worker record written by `snapshot`. -/
def saveWorkerOf (w : WorkerState) : saveWorker :=
  { key := w.definition.key, owned := w.owned, tier := w.tier, auto := w.auto }

/-- The per-industry record written by `snapshot`. -/
def saveIndustryOf (ind : IndustryState) : saveIndustry :=
  { key := ind.key, workers := ind.workers.map saveWorkerOf }

/-- `game.go` `snapshot` (the save side of the codec). -/
def snapshot (now : Int) (g : GameState) : saveGame :=
  { industries := g.industries.map saveIndustryOf
    resources := some g.resources
    production := g.production.map (fun p => { nextAt := p.nextAt })
    buyModeMax := g.buyModeMax
    devMode := g.devMode
    savedAt := now
    version := 1 }

/-- The write-back `applySnapshot` performs on one worker from its saved
record: owned/tier verbatim, auto re-latched against the recorded tier,
running state discarded. -/
def loadWorker (w : WorkerState) (sw : saveWorker) : WorkerState :=
  { w with
    owned := sw.owned
    tier := sw.tier
    auto := sw.auto || decide (0 < w.definition.autoTier ∧ w.definition.autoTier ≤ sw.tier)
    running := false
    endsAt := 0 }

/-- The per-worker leg of `applySnapshot`'s reconciliation loop: workers are
overwritten **in place, one at a time**; a missing key aborts with the
remaining workers untouched. -/
def applySnapWorkers (wl : List saveWorker) :
    List WorkerState → List WorkerState × Option String
  | [] => ([], none)
  | w :: rest =>
    match lookupLast (fun sw => sw.key) wl w.definition.key with
    | none => (w :: rest, some ("save missing worker " ++ w.definition.key))
    | some sw =>
      let p := applySnapWorkers wl rest
      (loadWorker w sw :: p.1, p.2)

/-- The per-industry leg of `applySnapshot`: industries already processed
stay mutated when a later lookup fails. -/
def applySnapIndustries (il : List saveIndustry) :
    List IndustryState → List IndustryState × Option String
  | [] => ([], none)
  | ind :: rest =>
    match lookupLast (fun si => si.key) il ind.key with
    | none => (ind :: rest, some ("save missing industry " ++ ind.key))
    | some si =>
      let p := applySnapWorkers si.workers ind.workers
      let ind' := { ind with workers := p.1 }
      match p.2 with
      | some msg => (ind' :: rest, some msg)
      | none =>
        let q := applySnapIndustries il rest
        (ind' :: q.1, q.2)

/-- `game.go` `applySnapshot`: the load side of the codec, returning the
(possibly partially mutated) state together with the error, mirroring the
in-place mutation of the source. -/
def applySnapshot (snap : saveGame) (g : GameState) : GameState × Option String :=
  match snap.resources with
  | none => (g, some "save missing resources")
  | some sres =>
    if snap.industries.length ≠ g.industries.length then
      (g, some "save industries mismatch")
    else if snap.production.length ≠ g.production.length then
      (g, some "save production mismatch")
    else
      let p := applySnapIndustries snap.industries g.industries
      match p.2 with
      | some msg => ({ g with industries := p.1 }, some msg)
      | none =>
        ({ industries := p.1
           resources := sres
           production := List.zipWith (fun pr sp => { pr with nextAt := sp.nextAt })
             g.production snap.production
           buyModeMax := snap.buyModeMax
           devMode := snap.devMode }, none)

/-- `config.go` `LoadConfig` validation (the `Cost == nil` check has no
counterpart because the association-list model cannot distinguish a nil map
from an empty one). -/
def configValid (cfg : GameConfig) : Prop :=
  cfg.industries ≠ [] ∧
  (∀ ind ∈ cfg.industries, ind.key ≠ "" ∧ ind.resource ≠ "" ∧ ind.workers ≠ [] ∧
    ∀ w ∈ ind.workers, w.key ≠ "" ∧ w.workerName ≠ "" ∧ 0 < w.prodRate ∧
      0 < w.prodQuant ∧ 0 < w.upgradeMult ∧ 0 < w.level) ∧
  ∀ p ∈ cfg.startingProduction, p.resource ≠ "" ∧ 0 < p.prodRate ∧ 0 < p.prodQuant

instance (cfg : GameConfig) : Decidable (configValid cfg) := by
  unfold configValid
  infer_instance

/-- `config.go` `LoadConfig` also rewrites every cost table:
`worker.Cost["coins"] = worker.Level`. -/
def normalizeConfig (cfg : GameConfig) : GameConfig :=
  { cfg with industries := cfg.industries.map (fun ind =>
      { ind with workers := ind.workers.map (fun w =>
          { w with cost := setK w.cost "coins" w.level }) }) }

/-- `config.go` `LoadConfig` as a total function on an already-parsed
configuration: validate, then normalize. -/
def loadConfig (cfg : GameConfig) : Option GameConfig :=
  if configValid cfg then some (normalizeConfig cfg) else none

/-- Well-formedness every value of the Go type `GameConfig` has by
construction: a Go `map[string]int` cannot contain a key twice, so every
cost table's key list is duplicate-free.  (This is a property of the Go
data type itself, not of `LoadConfig`'s validation.) -/
def cfgCostsWF (cfg : GameConfig) : Prop :=
  ∀ ind ∈ cfg.industries, ∀ w ∈ ind.workers, (w.cost.map Prod.fst).Nodup

instance (cfg : GameConfig) : Decidable (cfgCostsWF cfg) := by
  unfold cfgCostsWF
  infer_instance

/-- States reachable through the command surface: built from a loaded
configuration, then mutated by ticks, run requests, purchases, upgrades, the
buy-max toggle, and (possibly failing, hence possibly partial) snapshot
loads — exactly the mutations the UI layer can invoke. -/
inductive Reachable : GameState → Prop where
  | init : ∀ cfg cfg' now g, cfgCostsWF cfg → loadConfig cfg = some cfg' →
      buildGame now cfg' = some g → Reachable g
  | step_update : ∀ now g, Reachable g → Reachable (update now g)
  | step_start : ∀ i j now g, Reachable g → Reachable (startRun i j now g).1
  | step_buy : ∀ i j g, Reachable g → Reachable (buyWorker i j g).1
  | step_upgrade : ∀ i j g, Reachable g → Reachable (upgradeWorker i j g).1
  | step_toggleMax : ∀ g, Reachable g → Reachable { g with buyModeMax := !g.buyModeMax }
  | step_load : ∀ snap g, Reachable g → Reachable (applySnapshot snap g).1

/-- The worker stored at position `(i, j)`, if any. -/
def wAt (g : GameState) (i j : Nat) : Option WorkerState :=
  (g.industries.get? i).bind (fun ind => ind.workers.get? j)

/-- The definitions of a worker list (the immutable part). -/
def defsOf (ws : List WorkerState) : List WorkerConfig :=
  ws.map (fun w => w.definition)

/-- The per-industry lists of worker definitions: the immutable skeleton of
a state, unchanged by every operation. -/
def defsList (g : GameState) : List (List WorkerConfig) :=
  g.industries.map (fun ind => defsOf ind.workers)

/-- The owned-counts of a worker list. -/
def ownedOf (ws : List WorkerState) : List Int :=
  ws.map (fun w => w.owned)

/-- Both invariants of every worker's cost table that hold in any state the
program can actually be in: the table contains a positive entry (LoadConfig
forces `cost["coins"] = level ≥ 1`) and, being the image of a Go map, its
key list is duplicate-free. -/
def costWF (g : GameState) : Prop :=
  ∀ ind ∈ g.industries, ∀ w ∈ ind.workers,
    (∃ e ∈ w.definition.cost, 0 < e.2) ∧ (w.definition.cost.map Prod.fst).Nodup

/-- The structural-validation criterion of `applySnapshot` (claim C10):
resource map present, counts equal, every live industry key resolvable in
the snapshot and every live worker key resolvable in that industry's
(last-wins) entry. -/
def snapStructOK (snap : saveGame) (g : GameState) : Prop :=
  snap.resources ≠ none ∧
  snap.industries.length = g.industries.length ∧
  snap.production.length = g.production.length ∧
  ∀ ind ∈ g.industries, ∃ si,
    lookupLast (fun s => s.key) snap.industries ind.key = some si ∧
    ∀ w ∈ ind.workers,
      (lookupLast (fun s => s.key) si.workers w.definition.key).isSome

/-- A worker `Update now'` leaves untouched: the auto-restart guard does not
fire and the cycle-completion guard does not fire. -/
def stableW (now' : Int) (w : WorkerState) : Prop :=
  ¬(w.auto = true ∧ w.running = false ∧ 0 < w.owned) ∧
  (w.running = false ∨ now' < w.endsAt)

/-- An industry with no production chain: no worker's produced key names a
worker of the same industry. -/
def noChain (ind : IndustryState) : Prop :=
  ∀ w ∈ ind.workers, findWorkerIndex ind.workers w.definition.produces = none

/-! ### Concrete fixtures used by counterexamples and witnesses -/

/-- A plain manual worker (auto never unlocks). -/
def wPlain : WorkerConfig :=
  { key := "a", workerName := "A", produces := "coal", prodRate := 10, prodQuant := 25,
    upgradeMult := 2, autoTier := 0, level := 1, cost := [("coins", 1)] }

/-- A worker whose auto threshold is tier 3. -/
def wThresh3 : WorkerConfig :=
  { key := "a", workerName := "A", produces := "coal", prodRate := 10, prodQuant := 25,
    upgradeMult := 2, autoTier := 3, level := 1, cost := [("coins", 1)] }

/-- A worker with auto threshold 1: auto-eligible already at the starting
tier, although `BuildGame` starts it with `auto = false`. -/
def wThresh1 : WorkerConfig :=
  { key := "a", workerName := "A", produces := "coal", prodRate := 10, prodQuant := 25,
    upgradeMult := 2, autoTier := 1, level := 1, cost := [("coins", 10)] }

/-- A second worker key for two-industry fixtures. -/
def wKeyB : WorkerConfig :=
  { key := "b", workerName := "B", produces := "coal", prodRate := 10, prodQuant := 5,
    upgradeMult := 2, autoTier := 3, level := 2, cost := [("coins", 20)] }

/-- Two-industry live state for the load-atomicity claim. -/
def gTwo : GameState :=
  { industries := [
      { key := "mine"
        name := "Mine"
        resource := "coal"
        workers := [
          { definition := wPlain, owned := 1, tier := 1, running := false, endsAt := 0,
            auto := false }] },
      { key := "farm"
        name := "Farm"
        resource := "grain"
        workers := [
          { definition := wKeyB, owned := 1, tier := 1, running := false, endsAt := 0,
            auto := false }] }]
    resources := [("coins", 100)]
    production := []
    buyModeMax := false
    devMode := false }

/-- A snapshot that passes every up-front check, rewrites the first industry,
and only then fails because the second industry's entry lacks worker `b`. -/
def badSnap : saveGame :=
  { industries := [
      { key := "mine", workers := [{ key := "a", owned := 99, tier := 7, auto := true }] },
      { key := "farm", workers := [] }]
    resources := some [("coins", 5)]
    production := []
    buyModeMax := true
    devMode := true
    savedAt := 0
    version := 1 }

/-- Configuration whose only worker has auto threshold 1. -/
def cfgAuto : GameConfig :=
  { startingResources := [("coins", 100)]
    startingProduction := []
    industries := [
      { key := "mine"
        name := "Mine"
        resource := "coal"
        workers := [wThresh1] }] }

/-- The state `BuildGame` produces from `cfgAuto` (worker owned, tier 1,

auto **false** even though the threshold condition `tier ≥ autoTier` already
holds). -/
def gAuto : GameState :=
  { industries := [
      { key := "mine"
        name := "Mine"
        resource := "coal"
        workers := [
          { definition := { wThresh1 with cost := [("coins", 1)] }, owned := 1, tier := 1,
            running := false, endsAt := 0, auto := false }] }]
    resources := [("coins", 100)]
    production := []
    buyModeMax := false
    devMode := false }

/-- Live state whose worker has latched auto at tier 3. -/
def gLatched : GameState :=
  { industries := [
      { key := "mine"
        name := "Mine"
        resource := "coal"
        workers := [
          { definition := wThresh3, owned := 2, tier := 3, running := false, endsAt := 0,
            auto := true }] }]
    resources := [("coins", 0)]
    production := []
    buyModeMax := false
    devMode := false }

/-- `gLatched` with dev mode switched on (free upgrades). -/
def gLatchedDev : GameState :=
  { gLatched with devMode := true }

/-- A structurally valid snapshot recording the same worker before its auto
latch: tier 1, auto false. -/
def snapOld : saveGame :=
  { industries := [
      { key := "mine", workers := [{ key := "a", owned := 1, tier := 1, auto := false }] }]
    resources := some [("coins", 0)]
    production := []
    buyModeMax := false
    devMode := false
    savedAt := 0
    version := 1 }

/-- Backward production chain: the worker at index 1 produces units of the
auto-enabled worker at index 0, which idles at owned 0. -/
def wFeeder : WorkerConfig :=
  { key := "a", workerName := "A", produces := "b", prodRate := 10, prodQuant := 2,
    upgradeMult := 2, autoTier := 0, level := 1, cost := [("coins", 1)] }

/-- The fed worker: auto, idle, not yet owned. -/
def wFed : WorkerConfig :=
  { key := "b", workerName := "B", produces := "coal", prodRate := 10, prodQuant := 1,
    upgradeMult := 2, autoTier := 2, level := 1, cost := [("coins", 1)] }

/-- State on which `Update` is not idempotent: the first pass produces `b`
units, the second pass auto-starts the now-owned `b`. -/
def gChain : GameState :=
  { industries := [
      { key := "mine"
        name := "Mine"
        resource := "coal"
        workers := [
          { definition := wFed, owned := 0, tier := 2, running := false, endsAt := 0,
            auto := true },
          { definition := wFeeder, owned := 1, tier := 1, running := true, endsAt := 3,
            auto := false }] }]
    resources := []
    production := []
    buyModeMax := false
    devMode := false }

/-- One-industry, one-worker state with buy-max enabled used by economy
witnesses. -/
def gShop : GameState :=
  { industries := [
      { key := "mine"
        name := "Mine"
        resource := "coal"
        workers := [
          { definition := wThresh3, owned := 1, tier := 1, running := false, endsAt := 0,
            auto := false }] }]
    resources := [("coins", 10)]
    production := []
    buyModeMax := true
    devMode := false }

/-- A structurally valid snapshot for `gTwo` recording out-of-range values:
negative owned-counts, tier 0 and -3, and a negative coin balance. -/
def snapNeg : saveGame :=
  { industries := [
      { key := "mine", workers := [{ key := "a", owned := -5, tier := 0, auto := false }] },
      { key := "farm", workers := [{ key := "b", owned := -2, tier := -3, auto := false }] }]
    resources := some [("coins", -7)]
    production := []
    buyModeMax := false
    devMode := false
    savedAt := 0
    version := 1 }

/-- The truncated quotients `balance / amount` of the positive cost entries:
the candidates whose minimum `maxAffordable` returns. -/
def posQuots (cost res : Rmap) : List Int :=
  cost.filterMap (fun e => if 0 < e.2 then some (Int.tdiv (getD res e.1) e.2) else none)

/-! ### Basic map lemmas -/

theorem getD_nil (k : String) : getD [] k = 0 := rfl

theorem getD_cons (e : String × Int) (m : Rmap) (k : String) :
    getD (e :: m) k = if e.1 = k then e.2 else getD m k := by
  unfold getD
  rw [List.find?_cons]
  by_cases h : e.1 = k
  · simp [h]
  · have hbe : (e.1 == k) = false := beq_eq_false_iff_ne.mpr h
    simp [hbe, h]

theorem getD_setK (m : Rmap) (k : String) (v : Int) (k' : String) :
    getD (setK m k v) k' = if k' = k then v else getD m k' := by
  induction m with
  | nil =>
    by_cases h : k' = k
    · simp [setK, getD_cons, h]
    · simp [setK, getD_cons, h, Ne.symm h, getD_nil]
  | cons e rest ih =>
    by_cases hek : e.1 = k
    · by_cases h : k' = k
      · simp [setK, hek, getD_cons, h]
      · have hne : ¬e.1 = k' := by rw [hek]; exact Ne.symm h
        simp [setK, hek, getD_cons, h, hne, Ne.symm h]
    · by_cases h : k' = k
      · subst h
        have hne : ¬e.1 = k' := hek
        simp [setK, hek, getD_cons, hne, ih]
      · simp [setK, hek, getD_cons, ih, h]

theorem getD_addK (m : Rmap) (k : String) (v : Int) (k' : String) :
    getD (addK m k v) k' = if k' = k then getD m k + v else getD m k' := by
  unfold addK
  rw [getD_setK]

/-! ### Affordability lemmas -/

theorem canAfford_iff (cost res : Rmap) :
    canAfford cost res = true ↔ ∀ e ∈ cost, e.2 ≤ getD res e.1 := by
  unfold canAfford
  rw [List.all_eq_true]
  constructor
  · intro h e he
    have := h e he
    simp only [Bool.not_eq_true', decide_eq_false_iff_not, not_lt] at this
    exact this
  · intro h e he
    simp only [Bool.not_eq_true', decide_eq_false_iff_not, not_lt]
    exact h e he

theorem canAfford_eq_false_iff (cost res : Rmap) :
    canAfford cost res = false ↔ ∃ e ∈ cost, getD res e.1 < e.2 := by
  rw [← Bool.not_eq_true, canAfford_iff]
  push_neg
  exact Iff.rfl

theorem foldl_min_le_init (l : List Int) (a : Int) : l.foldl min a ≤ a := by
  induction l generalizing a with
  | nil => exact le_refl a
  | cons x xs ih => exact le_trans (ih (min a x)) (min_le_left a x)

theorem foldl_min_le_mem (l : List Int) : ∀ a x : Int, x ∈ l → l.foldl min a ≤ x := by
  induction l with
  | nil => intro a x hx; cases hx
  | cons y ys ih =>
    intro a x hx
    rcases List.mem_cons.mp hx with h | h
    · subst h
      exact le_trans (foldl_min_le_init ys (min a x)) (min_le_right a x)
    · exact ih (min a y) x h

theorem le_foldl_min (l : List Int) (a c : Int) (ha : c ≤ a)
    (hl : ∀ x ∈ l, c ≤ x) : c ≤ l.foldl min a := by
  induction l generalizing a with
  | nil => exact ha
  | cons y ys ih =>
    exact ih (min a y) (le_min ha (hl y (List.mem_cons_self y ys)))
      (fun x hx => hl x (List.mem_cons_of_mem y hx))

theorem foldl_min_cases (l : List Int) (a : Int) :
    l.foldl min a = a ∨ l.foldl min a ∈ l := by
  induction l generalizing a with
  | nil => exact Or.inl rfl
  | cons y ys ih =>
    rcases ih (min a y) with h | h
    · rcases min_cases a y with ⟨hm, _⟩ | ⟨hm, _⟩
      · exact Or.inl (by rw [List.foldl_cons, h, hm])
      · exact Or.inr (by rw [List.foldl_cons, h, hm]; exact List.mem_cons_self y ys)
    · exact Or.inr (List.mem_cons_of_mem y h)

theorem maxAffordable_foldl (cost res : Rmap) : ∀ acc : Option Int,
    cost.foldl
      (fun (limit : Option Int) (e : String × Int) =>
        if e.2 ≤ 0 then limit
        else
          let q := Int.tdiv (getD res e.1) e.2
          match limit with
          | none => some q
          | some l => some (min l q))
      acc
    =
    match acc with
    | none =>
      match posQuots cost res with
      | [] => none
      | q :: qs => some (qs.foldl min q)
    | some l => some ((posQuots cost res).foldl min l) := by
  induction cost with
  | nil => intro acc; cases acc <;> simp [posQuots]
  | cons e rest ih =>
    intro acc
    by_cases he : e.2 ≤ 0
    · have hq : posQuots (e :: rest) res = posQuots rest res := by
        simp [posQuots, List.filterMap_cons, not_lt.mpr he, not_lt_of_le he]
      cases acc <;> simp only [List.foldl_cons, if_pos he, ih, hq]
    · have hpos : 0 < e.2 := lt_of_not_le he
      have hq : posQuots (e :: rest) res =
          Int.tdiv (getD res e.1) e.2 :: posQuots rest res := by
        simp [posQuots, List.filterMap_cons, hpos]
      cases acc <;> simp only [List.foldl_cons, if_neg he, ih, hq]

theorem maxAffordable_eq (cost res : Rmap) :
    maxAffordable cost res =
      match posQuots cost res with
      | [] => 0
      | q :: qs => qs.foldl min q := by
  unfold maxAffordable
  rw [maxAffordable_foldl]
  cases posQuots cost res <;> simp

theorem mem_posQuots (cost res : Rmap) (e : String × Int) (he : e ∈ cost)
    (hpos : 0 < e.2) : Int.tdiv (getD res e.1) e.2 ∈ posQuots cost res := by
  unfold posQuots
  exact List.mem_filterMap.mpr ⟨e, he, by simp [hpos]⟩

theorem posQuots_mem (cost res : Rmap) (q : Int) (hq : q ∈ posQuots cost res) :
    ∃ e ∈ cost, 0 < e.2 ∧ q = Int.tdiv (getD res e.1) e.2 := by
  unfold posQuots at hq
  obtain ⟨e, he, heq⟩ := List.mem_filterMap.mp hq
  by_cases hpos : 0 < e.2
  · refine ⟨e, he, hpos, ?_⟩
    simp [hpos] at heq
    exact heq.symm
  · simp [hpos] at heq

theorem posQuots_nil_iff (cost res : Rmap) :
    posQuots cost res = [] ↔ ∀ e ∈ cost, e.2 ≤ 0 := by
  constructor
  · intro h e he
    by_contra hpos
    have := mem_posQuots cost res e he (lt_of_not_le hpos)
    rw [h] at this
    cases this
  · intro h
    rw [List.eq_nil_iff_forall_not_mem]
    intro q hq
    obtain ⟨e, he, hpos, _⟩ := posQuots_mem cost res q hq
    exact absurd (h e he) (not_le.mpr hpos)

/-- With no positive cost entry, `maxAffordable` returns the `0` that stands
for its `math.MaxInt` sentinel. -/
theorem maxAffordable_no_pos (cost res : Rmap) (h : ∀ e ∈ cost, e.2 ≤ 0) :
    maxAffordable cost res = 0 := by
  rw [maxAffordable_eq, (posQuots_nil_iff cost res).mpr h]

/-- `maxAffordable` is bounded by every positive entry's quotient. -/
theorem maxAffordable_le (cost res : Rmap) (e : String × Int) (he : e ∈ cost)
    (hpos : 0 < e.2) : maxAffordable cost res ≤ Int.tdiv (getD res e.1) e.2 := by
  rw [maxAffordable_eq]
  have hmem := mem_posQuots cost res e he hpos
  rcases hpq : posQuots cost res with _ | ⟨q, qs⟩
  · rw [hpq] at hmem; cases hmem
  · rw [hpq] at hmem
    have hred : (match q :: qs with | [] => (0 : Int) | q :: qs => qs.foldl min q)
        = qs.foldl min q := rfl
    rw [hred]
    rcases List.mem_cons.mp hmem with h | h
    · rw [← h]; exact foldl_min_le_init qs _
    · exact foldl_min_le_mem qs q _ h

/-- `maxAffordable` is at least any common lower bound of the positive
entries' quotients, provided some positive entry exists. -/
theorem le_maxAffordable (cost res : Rmap) (c : Int)
    (hex : ∃ e ∈ cost, 0 < e.2)
    (hc : ∀ e ∈ cost, 0 < e.2 → c ≤ Int.tdiv (getD res e.1) e.2) :
    c ≤ maxAffordable cost res := by
  rw [maxAffordable_eq]
  obtain ⟨e, he, hpos⟩ := hex
  have hmem := mem_posQuots cost res e he hpos
  rcases hpq : posQuots cost res with _ | ⟨q, qs⟩
  · rw [hpq] at hmem; cases hmem
  · have hred : (match q :: qs with | [] => (0 : Int) | q :: qs => qs.foldl min q)
        = qs.foldl min q := rfl
    rw [hred]
    refine le_foldl_min qs q c ?_ ?_
    · have : q ∈ posQuots cost res := by rw [hpq]; exact List.mem_cons_self q qs
      obtain ⟨e', he', hp', hq'⟩ := posQuots_mem cost res q this
      rw [hq']; exact hc e' he' hp'
    · intro x hx
      have : x ∈ posQuots cost res := by rw [hpq]; exact List.mem_cons_of_mem q hx
      obtain ⟨e', he', hp', hq'⟩ := posQuots_mem cost res x this
      rw [hq']; exact hc e' he' hp'

/-- `maxAffordable` equals one of the positive entries' quotients when a
positive entry exists. -/
theorem maxAffordable_is_quot (cost res : Rmap) (hex : ∃ e ∈ cost, 0 < e.2) :
    ∃ e ∈ cost, 0 < e.2 ∧
      maxAffordable cost res = Int.tdiv (getD res e.1) e.2 := by
  rw [maxAffordable_eq]
  obtain ⟨e, he, hpos⟩ := hex
  have hmem := mem_posQuots cost res e he hpos
  rcases hpq : posQuots cost res with _ | ⟨q, qs⟩
  · rw [hpq] at hmem; cases hmem
  · have hred : (match q :: qs with | [] => (0 : Int) | q :: qs => qs.foldl min q)
        = qs.foldl min q := rfl
    rw [hred]
    have : qs.foldl min q ∈ posQuots cost res := by
      rw [hpq]
      rcases foldl_min_cases qs q with h | h
      · rw [h]; exact List.mem_cons_self q qs
      · exact List.mem_cons_of_mem q h
    obtain ⟨e', he', hp', hq'⟩ := posQuots_mem cost res _ this
    exact ⟨e', he', hp', hq'⟩

/-- Go's truncated division agrees with `n * a ≤ b` bounds on the
non-negative balances the ledger invariant provides. -/
theorem le_tdiv_iff_mul_le (b a n : Int) (hb : 0 ≤ b) (ha : 0 < a) :
    n ≤ Int.tdiv b a ↔ n * a ≤ b := by
  rw [show Int.tdiv b a = b / a from Int.div_eq_ediv hb (le_of_lt ha)]
  exact Int.le_ediv_iff_mul_le ha

theorem tdiv_nonneg_of_nonneg (b a : Int) (hb : 0 ≤ b) (ha : 0 < a) :
    0 ≤ Int.tdiv b a := by
  rw [le_tdiv_iff_mul_le b a 0 hb ha]
  simpa using hb

/-! ### Indexed-update lemmas -/

theorem get?_modifyAt_self {α : Type} (l : List α) (i : Nat) (f : α → α) (x : α)
    (h : l.get? i = some x) : (modifyAt l i f).get? i = some (f x) := by
  unfold modifyAt
  rw [h]
  have hlen : i < l.length := List.get?_eq_some.mp h |>.1
  exact List.get?_set_eq_of_lt (f x) hlen

theorem get?_modifyAt_ne {α : Type} (l : List α) (i : Nat) (f : α → α) (i' : Nat)
    (h : i' ≠ i) : (modifyAt l i f).get? i' = l.get? i' := by
  unfold modifyAt
  cases hx : l.get? i with
  | none => rfl
  | some x => exact List.get?_set_ne (f x) l (Ne.symm h)

theorem modifyAt_length {α : Type} (l : List α) (i : Nat) (f : α → α) :
    (modifyAt l i f).length = l.length := by
  unfold modifyAt
  cases hx : l.get? i with
  | none => rfl
  | some x => simp

theorem setWorker_resources (g : GameState) (i j : Nat) (w : WorkerState) :
    (setWorker g i j w).resources = g.resources := rfl

theorem setWorker_production (g : GameState) (i j : Nat) (w : WorkerState) :
    (setWorker g i j w).production = g.production := rfl

theorem wAt_setWorker_self (g : GameState) (i j : Nat) (w w' : WorkerState)
    (hw : wAt g i j = some w) : wAt (setWorker g i j w') i j = some w' := by
  unfold wAt at hw ⊢
  cases hind : g.industries.get? i with
  | none => rw [hind] at hw; cases hw
  | some ind =>
    rw [hind] at hw
    simp only [Option.bind_eq_bind, Option.some_bind] at hw
    unfold setWorker
    rw [get?_modifyAt_self g.industries i _ ind hind]
    simp only [Option.bind_eq_bind, Option.some_bind]
    have hlen : j < ind.workers.length := List.get?_eq_some.mp hw |>.1
    exact List.get?_set_eq_of_lt w' hlen

theorem wAt_setWorker_ne (g : GameState) (i j : Nat) (w' : WorkerState)
    (i' j' : Nat) (h : i' ≠ i ∨ j' ≠ j) :
    wAt (setWorker g i j w') i' j' = wAt g i' j' := by
  unfold wAt setWorker
  by_cases hi : i' = i
  · subst hi
    have hj : j' ≠ j := h.resolve_left (fun hh => hh rfl)
    cases hind : g.industries.get? i' with
    | none =>
      have hm : modifyAt g.industries i'
          (fun ind => { ind with workers := ind.workers.set j w' }) = g.industries := by
        unfold modifyAt
        rw [hind]
      rw [hm]
      show (g.industries.get? i').bind (fun ind => ind.workers.get? j') = _
      rw [hind]
    | some ind =>
      rw [get?_modifyAt_self g.industries i' _ ind hind]
      simp only [Option.bind_eq_bind, Option.some_bind]
      exact List.get?_set_ne w' ind.workers (Ne.symm hj)
  · rw [get?_modifyAt_ne _ _ _ _ hi]

/-! ### Claim theorems -/

/-- **C4.** With buy-max enabled, `BuyWorker`'s purchase count
`maxAffordable` is the largest `n ≥ 0` with `n × unit_cost ≤ balance` for
every positive cost entry (zero or negative entries do not constrain it);
with no positive entry every count satisfies the constraint vacuously (the
mathematical maximum is unbounded) and the code returns the sentinel `0`; in
dev mode the count is floored to 1 so the purchase succeeds, ownership
strictly increases, and the ledger is untouched; outside dev mode a
non-positive count fails with `cannot afford` and changes nothing. -/
theorem C4_buyMax_count
    (g : GameState) (i j : Nat) (ind : IndustryState) (w : WorkerState)
    (hind : g.industries.get? i = some ind) (hjw : ind.workers.get? j = some w)
    (hbm : g.buyModeMax = true) :
    (((∀ e ∈ w.definition.cost, 0 < e.2 → 0 ≤ getD g.resources e.1) →
      (∃ e ∈ w.definition.cost, 0 < e.2) →
      (0 ≤ maxAffordable w.definition.cost g.resources ∧
       (∀ e ∈ w.definition.cost, 0 < e.2 →
         maxAffordable w.definition.cost g.resources * e.2 ≤ getD g.resources e.1) ∧
       ∀ n : Int, (∀ e ∈ w.definition.cost, 0 < e.2 → n * e.2 ≤ getD g.resources e.1) →
         n ≤ maxAffordable w.definition.cost g.resources)) ∧
    ((∀ e ∈ w.definition.cost, e.2 ≤ 0) →
      (maxAffordable w.definition.cost g.resources = 0 ∧
       ∀ n : Int, ∀ e ∈ w.definition.cost, 0 < e.2 → n * e.2 ≤ getD g.resources e.1)) ∧
    (g.devMode = true →
      (buyWorker i j g).2 = "bought " ++
        toString (if maxAffordable w.definition.cost g.resources < 1 then 1
                  else maxAffordable w.definition.cost g.resources) ∧
      (buyWorker i j g).1.resources = g.resources ∧
      wAt (buyWorker i j g).1 i j = some { w with owned := w.owned +
        (if maxAffordable w.definition.cost g.resources < 1 then 1
         else maxAffordable w.definition.cost g.resources) } ∧
      w.owned < w.owned + (if maxAffordable w.definition.cost g.resources < 1 then 1
                           else maxAffordable w.definition.cost g.resources)) ∧
    (g.devMode = false → maxAffordable w.definition.cost g.resources ≤ 0 →
      buyWorker i j g = (g, "cannot afford"))) := by
  set m := maxAffordable w.definition.cost g.resources with hm
  refine ⟨?_, ?_, ?_, ?_⟩
  · intro hnn hex
    refine ⟨?_, ?_, ?_⟩
    · obtain ⟨e, he, hpos, heq⟩ := maxAffordable_is_quot w.definition.cost g.resources hex
      rw [← hm] at heq
      rw [heq]
      exact tdiv_nonneg_of_nonneg _ _ (hnn e he hpos) hpos
    · intro e he hpos
      have h1 := maxAffordable_le w.definition.cost g.resources e he hpos
      rw [← hm] at h1
      exact (le_tdiv_iff_mul_le _ _ m (hnn e he hpos) hpos).mp h1
    · intro n hn
      have h2 := le_maxAffordable w.definition.cost g.resources n hex ?_
      · rw [← hm] at h2; exact h2
      · intro e he hpos
        exact (le_tdiv_iff_mul_le _ _ n (hnn e he hpos) hpos).mpr (hn e he hpos)
  · intro hz
    refine ⟨?_, ?_⟩
    · rw [hm]; exact maxAffordable_no_pos _ _ hz
    · intro n e he hpos
      exact absurd (hz e he) (not_le.mpr hpos)
  · intro hdev
    have hcount : ¬(if m < 1 then (1 : Int) else m) ≤ 0 := by
      by_cases hlt : m < 1
      · simp [hlt]
      · simp only [if_neg hlt]
        omega
    have hbw : buyWorker i j g =
        (setWorker g i j { w with owned := w.owned + (if m < 1 then 1 else m) },
         "bought " ++ toString (if m < 1 then 1 else m)) := by
      unfold buyWorker
      simp only [hind, hjw, hdev, hbm, if_true, ← hm, hcount, if_neg hcount, if_false,
        if_neg (by exact id)]
    rw [hbw]
    refine ⟨rfl, rfl,
      wAt_setWorker_self g i j w _ (by unfold wAt; rw [hind]; simpa using hjw), ?_⟩
    by_cases hlt : m < 1
    · simp [hlt]
    · simp only [if_neg hlt]
      omega
  · intro hdev hle
    unfold buyWorker
    simp only [hind, hjw, hdev, hbm, ← hm]
    simp [hle, not_lt.mpr hle]

/-- Witness for C4 at the concrete shop state: the buy-max count over
`cost = [("coins", 1)]`, `balance = 10` is the greatest such `n`. -/
theorem C4_buyMax_count_witness :
    0 ≤ maxAffordable wThresh3.cost gShop.resources ∧
    (∀ e ∈ wThresh3.cost, 0 < e.2 →
      maxAffordable wThresh3.cost gShop.resources * e.2 ≤ getD gShop.resources e.1) ∧
    (∀ n : Int, (∀ e ∈ wThresh3.cost, 0 < e.2 → n * e.2 ≤ getD gShop.resources e.1) →
      n ≤ maxAffordable wThresh3.cost gShop.resources) :=
  (C4_buyMax_count gShop 0 0 _ _ rfl rfl rfl).1 (by decide) (by decide)

/-- **C1.** The code violates the claim: `applySnapshot` mutates the live
state in place while validating, so a snapshot that passes the up-front
checks but lacks a worker key in its **second** industry's entry errors out
with the **first** industry's worker already overwritten (owned 1→99,
tier 1→7, auto latched), while the claim demands the live state be
completely unchanged on any validation failure. -/
theorem C1_load_not_atomic :
    (applySnapshot badSnap gTwo).2 = some "save missing worker b" ∧
    (applySnapshot badSnap gTwo).1.industries.get? 0 ≠ gTwo.industries.get? 0 ∧
    wAt (applySnapshot badSnap gTwo).1 0 0 =
      some { definition := wPlain, owned := 99, tier := 7, running := false, endsAt := 0, auto := true } := by
  refine ⟨by decide, by decide, by decide⟩

/-- **C2 (counterexample).** A reachable state refuting the round-trip
claim as stated: `BuildGame` on a configuration whose worker has auto
threshold 1 yields tier 1 with `auto = false`; save-then-load succeeds but
re-latches `auto` to `true`, so the auto flag is *not* identical to its
save-time value. -/
theorem C2_counterexample :
    Reachable gAuto ∧
    (wAt gAuto 0 0).map (fun w => w.auto) = some false ∧
    (applySnapshot (snapshot 5 gAuto) gAuto).2 = none ∧
    (wAt (applySnapshot (snapshot 5 gAuto) gAuto).1 0 0).map (fun w => w.auto) =
      some true := by
  refine ⟨Reachable.init cfgAuto (normalizeConfig cfgAuto) 0 gAuto (by decide) (by decide)
    (by decide), by decide, by decide, by decide⟩

/-- **C5 (counterexample).** A successful load of a structurally valid
snapshot that records `auto = false` and a sub-threshold tier clears a live
auto flag that is currently `true`: the latch is *not* one-way across
loads. -/
theorem C5_counterexample :
    (wAt gLatched 0 0).map (fun w => w.auto) = some true ∧
    (applySnapshot snapOld gLatched).2 = none ∧
    (wAt (applySnapshot snapOld gLatched).1 0 0).map (fun w => w.auto) = some false := by
  refine ⟨by decide, by decide, by decide⟩

/-- **C7 (counterexample).** `LoadConfig` admits any multiplier `> 0`;
with multiplier exactly 1 (valid per the configuration contract) the scaled
upgrade cost is constant in the tier, not strictly increasing. -/
theorem C7_counterexample :
    (0 : ℚ) < 1 ∧
    scaledCost [("coins", 10)] 1 1 = [("coins", 10)] ∧
    scaledCost [("coins", 10)] 1 2 = [("coins", 10)] := by
  refine ⟨by norm_num, by norm_num [scaledCost], by norm_num [scaledCost]⟩

/-- **C9 (counterexample).** `Update` is not idempotent on a state with a
backward production chain: the first pass at `now = 5` completes the
feeder's cycle and credits owned units to the auto-enabled worker at a lower
index, and only the second pass at the same `now` starts that worker — the
two states differ. -/
theorem C9_counterexample :
    update 5 (update 5 gChain) ≠ update 5 gChain := by decide


theorem pow_factor_pos (mult : ℚ) (hm : 1 ≤ mult) (k : Nat) : 1 ≤ mult ^ k :=
  one_le_pow₀ hm

theorem scaled_exp_succ (t : Int) (ht : 1 ≤ t) :
    (max (t + 1 - 1) 0).toNat = (max (t - 1) 0).toNat + 1 := by omega

theorem scaled_amount_mono (a : Int) (mult : ℚ) (t : Int)
    (ha : 0 < a) (ht : 1 ≤ t) (hm : 1 ≤ mult) :
    Int.ceil ((a : ℚ) * mult ^ (max (t - 1) 0).toNat) ≤
      Int.ceil ((a : ℚ) * mult ^ (max (t + 1 - 1) 0).toNat) := by
  apply Int.ceil_le_ceil
  rw [scaled_exp_succ t ht, pow_succ]
  have hfac : (0 : ℚ) ≤ (a : ℚ) * mult ^ (max (t - 1) 0).toNat := by
    have h1 : (0 : ℚ) ≤ (a : ℚ) := by exact_mod_cast le_of_lt ha
    have h2 : (0 : ℚ) ≤ mult ^ (max (t - 1) 0).toNat :=
      le_trans zero_le_one (pow_factor_pos mult hm _)
    exact mul_nonneg h1 h2
  calc (a : ℚ) * mult ^ (max (t - 1) 0).toNat
      = (a : ℚ) * mult ^ (max (t - 1) 0).toNat * 1 := by ring
    _ ≤ (a : ℚ) * mult ^ (max (t - 1) 0).toNat * mult := by
        exact mul_le_mul_of_nonneg_left hm hfac
    _ = (a : ℚ) * (mult ^ (max (t - 1) 0).toNat * mult) := by ring

theorem scaled_amount_strict (a : Int) (mult : ℚ) (t : Int)
    (ha : 0 < a) (ht : 1 ≤ t) (hm : 2 ≤ mult) :
    Int.ceil ((a : ℚ) * mult ^ (max (t - 1) 0).toNat) <
      Int.ceil ((a : ℚ) * mult ^ (max (t + 1 - 1) 0).toNat) := by
  have hm1 : (1 : ℚ) ≤ mult := le_trans one_le_two hm
  have hbase : (1 : ℚ) ≤ (a : ℚ) * mult ^ (max (t - 1) 0).toNat := by
    have h1 : (1 : ℚ) ≤ (a : ℚ) := by exact_mod_cast ha
    have h2 : (1 : ℚ) ≤ mult ^ (max (t - 1) 0).toNat := pow_factor_pos mult hm1 _
    calc (1 : ℚ) = 1 * 1 := by ring
      _ ≤ (a : ℚ) * mult ^ (max (t - 1) 0).toNat :=
        mul_le_mul h1 h2 zero_le_one (le_trans zero_le_one h1)
  have hstep : (a : ℚ) * mult ^ (max (t - 1) 0).toNat + 1 ≤
      (a : ℚ) * mult ^ (max (t + 1 - 1) 0).toNat := by
    rw [scaled_exp_succ t ht, pow_succ]
    have : (a : ℚ) * mult ^ (max (t - 1) 0).toNat * 2 ≤
        (a : ℚ) * mult ^ (max (t - 1) 0).toNat * mult :=
      mul_le_mul_of_nonneg_left hm (le_trans zero_le_one hbase)
    nlinarith
  calc Int.ceil ((a : ℚ) * mult ^ (max (t - 1) 0).toNat)
      < Int.ceil ((a : ℚ) * mult ^ (max (t - 1) 0).toNat) + 1 := by omega
    _ = Int.ceil ((a : ℚ) * mult ^ (max (t - 1) 0).toNat + 1) :=
        (Int.ceil_add_one _).symm
    _ ≤ Int.ceil ((a : ℚ) * mult ^ (max (t + 1 - 1) 0).toNat) :=
        Int.ceil_le_ceil hstep

/-- **C7 (amended).** For every positive base cost table and tier `t >= 1`:
with any multiplier `>= 1` the scaled cost is component-wise non-decreasing
from tier `t` to `t+1`, and with multiplier `>= 2` it is component-wise
strictly increasing.  (Strict increase fails for permitted multipliers
`<= 1`, see the counterexample, and can also fail to be strict for
multipliers between 1 and 2 because of integer rounding.) -/
theorem C7_cost_monotone (base : Rmap) (mult : ℚ) (tier : Int)
    (hbase : ∀ e ∈ base, 0 < e.2) (htier : 1 ≤ tier) (hmult : 1 ≤ mult) :
    List.Forall₂ (fun x y => x.1 = y.1 ∧ x.2 ≤ y.2)
      (scaledCost base mult tier) (scaledCost base mult (tier + 1)) ∧
    (2 ≤ mult → List.Forall₂ (fun x y => x.1 = y.1 ∧ x.2 < y.2)
      (scaledCost base mult tier) (scaledCost base mult (tier + 1))) := by
  constructor
  · induction base with
    | nil => exact List.Forall₂.nil
    | cons e rest ih =>
      refine List.Forall₂.cons ⟨rfl, ?_⟩ (ih (fun x hx => hbase x (List.mem_cons_of_mem e hx)))
      exact scaled_amount_mono e.2 mult tier (hbase e (List.mem_cons_self e rest)) htier hmult
  · intro hm2
    induction base with
    | nil => exact List.Forall₂.nil
    | cons e rest ih =>
      refine List.Forall₂.cons ⟨rfl, ?_⟩ (ih (fun x hx => hbase x (List.mem_cons_of_mem e hx)))
      exact scaled_amount_strict e.2 mult tier (hbase e (List.mem_cons_self e rest)) htier hm2


/-- Witness for C7 at base `[("coins", 10)]`, multiplier 2, tier 1. -/
theorem C7_cost_monotone_witness :
    List.Forall₂ (fun x y => x.1 = y.1 ∧ x.2 ≤ y.2)
      (scaledCost [("coins", 10)] 2 1) (scaledCost [("coins", 10)] 2 (1 + 1)) ∧
    (2 ≤ (2 : ℚ) → List.Forall₂ (fun x y => x.1 = y.1 ∧ x.2 < y.2)
      (scaledCost [("coins", 10)] 2 1) (scaledCost [("coins", 10)] 2 (1 + 1))) :=
  C7_cost_monotone [("coins", 10)] 2 1 (by decide) (by decide) (by norm_num)



theorem getD_eq_of_mem (cost : Rmap) (e : String × Int)
    (hnod : (cost.map Prod.fst).Nodup) (he : e ∈ cost) : getD cost e.1 = e.2 := by
  induction cost with
  | nil => cases he
  | cons x rest ih =>
    rcases List.mem_cons.mp he with h | h
    · subst h
      rw [getD_cons, if_pos rfl]
    · have hx : x.1 ∉ rest.map Prod.fst := (List.nodup_cons.mp hnod).1
      have hne : x.1 ≠ e.1 := by
        intro hc
        exact hx (hc ▸ List.mem_map_of_mem Prod.fst h)
      rw [getD_cons, if_neg hne]
      exact ih (List.nodup_cons.mp hnod).2 h

theorem getD_debit_not_mem (cost : Rmap) (c : Int) (res : Rmap) (k : String)
    (hk : k ∉ cost.map Prod.fst) : getD (debit cost c res) k = getD res k := by
  induction cost generalizing res with
  | nil => rfl
  | cons e rest ih =>
    have h1 : k ∉ rest.map Prod.fst := fun h => hk (List.mem_cons_of_mem _ h)
    have h2 : e.1 ≠ k := by
      intro hc
      exact hk (by rw [← hc]; exact List.mem_cons_self _ _)
    show getD (debit rest c (addK res e.1 (-(e.2 * c)))) k = getD res k
    rw [ih _ h1, getD_addK, if_neg (Ne.symm h2)]

theorem getD_debit (cost : Rmap) (c : Int) (res : Rmap) (k : String)
    (hnod : (cost.map Prod.fst).Nodup) :
    getD (debit cost c res) k = getD res k - c * getD cost k := by
  induction cost generalizing res with
  | nil => show getD res k = _; rw [getD_nil]; ring_nf
  | cons e rest ih =>
    obtain ⟨hx, hrest⟩ := List.nodup_cons.mp hnod
    show getD (debit rest c (addK res e.1 (-(e.2 * c)))) k = _
    by_cases hk : e.1 = k
    · subst hk
      rw [getD_debit_not_mem rest c _ _ hx, getD_addK, if_pos rfl, getD_cons, if_pos rfl]
      ring
    · rw [ih _ hrest, getD_addK, if_neg (Ne.symm hk), getD_cons, if_neg hk]

theorem getD_scaledCost (base : Rmap) (mult : ℚ) (tier : Int) (k : String) :
    getD (scaledCost base mult tier) k =
      Int.ceil ((getD base k : ℚ) * mult ^ (max (tier - 1) 0).toNat) := by
  induction base with
  | nil =>
    show (0 : Int) = _
    rw [getD_nil]
    simp
  | cons e rest ih =>
    show getD ((e.1, Int.ceil ((e.2 : ℚ) * _)) :: _) k = _
    rw [getD_cons, getD_cons]
    by_cases hk : e.1 = k
    · simp [hk]
    · simp only [hk, if_false]
      exact ih

theorem scaledCost_keys (base : Rmap) (mult : ℚ) (tier : Int) :
    (scaledCost base mult tier).map Prod.fst = base.map Prod.fst := by
  unfold scaledCost
  rw [List.map_map]
  rfl



/-- **C6.** Outside dev mode a successful `UpgradeWorker` at tier `t ≥ 1`
reports `upgraded`, sets the tier to exactly `t + 1`, and debits from every
resource in the base cost table exactly
`ceil(base_amount × multiplier ^ (t − 1))`, leaving every other balance
unchanged; concretely, base `{coins: 10}` with multiplier 2 costs 10 coins
at tier 1 and 20 coins at tier 2. -/
theorem C6_upgrade_cost (g : GameState) (i j : Nat) (ind : IndustryState) (w : WorkerState)
    (hind : g.industries.get? i = some ind) (hjw : ind.workers.get? j = some w)
    (hdev : g.devMode = false) (htier : 1 ≤ w.tier)
    (hnod : (w.definition.cost.map Prod.fst).Nodup)
    (hafford : canAfford
      (scaledCost w.definition.cost w.definition.upgradeMult w.tier) g.resources = true) :
    (upgradeWorker i j g).2 = "upgraded" ∧
    (wAt (upgradeWorker i j g).1 i j).map (fun w' => w'.tier) = some (w.tier + 1) ∧
    (∀ e ∈ w.definition.cost, getD (upgradeWorker i j g).1.resources e.1 =
      getD g.resources e.1 -
        Int.ceil ((e.2 : ℚ) * w.definition.upgradeMult ^ (w.tier - 1).toNat)) ∧
    (∀ k, k ∉ w.definition.cost.map Prod.fst →
      getD (upgradeWorker i j g).1.resources k = getD g.resources k) ∧
    scaledCost [("coins", 10)] 2 1 = [("coins", 10)] ∧
    scaledCost [("coins", 10)] 2 2 = [("coins", 20)] := by
  set scaled := scaledCost w.definition.cost w.definition.upgradeMult w.tier with hscaled
  set g1 : GameState := { g with resources := debit scaled 1 g.resources } with hg1
  set w1 : WorkerState := { w with tier := w.tier + 1, auto := if 0 < w.definition.autoTier ∧ w.definition.autoTier ≤ w.tier + 1 then true else w.auto } with hw1
  have hguard : ¬(g.devMode = false ∧ canAfford scaled g.resources = false) := by
    rw [hafford]
    rintro ⟨-, hc⟩
    cases hc
  have hscnod : (scaled.map Prod.fst).Nodup := by
    rw [hscaled, scaledCost_keys]
    exact hnod
  have hup : upgradeWorker i j g = (setWorker g1 i j w1, "upgraded") := by
    unfold upgradeWorker
    simp only [hind, hjw, ← hscaled]
    rw [if_neg hguard]
    simp only [hdev, Bool.false_eq_true, if_false, ← hw1]
    rw [hg1, hdev]
  have hres : (upgradeWorker i j g).1.resources = debit scaled 1 g.resources := by
    rw [hup, setWorker_resources]
  refine ⟨by rw [hup], ?_, ?_, ?_, by norm_num [scaledCost], by norm_num [scaledCost]⟩
  · rw [hup]
    have hg1w : wAt g1 i j = some w := by
      unfold wAt
      rw [show g1.industries = g.industries from rfl, hind]
      simpa using hjw
    rw [wAt_setWorker_self g1 i j w w1 hg1w]
    rfl
  · intro e he
    rw [hres, hscaled, getD_debit _ _ _ _ hscnod, getD_scaledCost,
      getD_eq_of_mem w.definition.cost e hnod he]
    have hexp : (max (w.tier - 1) 0).toNat = (w.tier - 1).toNat := by omega
    rw [hexp]
    ring
  · intro k hk
    rw [hres, hscaled, getD_debit_not_mem]
    rw [scaledCost_keys]
    exact hk



/-- Witness for C6: upgrading the tier-1 shop worker (cost `[("coins",1)]`,
multiplier 2) with 10 coins in the ledger. -/
theorem C6_upgrade_cost_witness :
    (upgradeWorker 0 0 gShop).2 = "upgraded" ∧
    (wAt (upgradeWorker 0 0 gShop).1 0 0).map (fun w' => w'.tier) = some ((1 : Int) + 1) ∧
    (∀ e ∈ wThresh3.cost, getD (upgradeWorker 0 0 gShop).1.resources e.1 =
      getD gShop.resources e.1 -
        Int.ceil ((e.2 : ℚ) * wThresh3.upgradeMult ^ ((1 : Int) - 1).toNat)) ∧
    (∀ k, k ∉ wThresh3.cost.map Prod.fst →
      getD (upgradeWorker 0 0 gShop).1.resources k = getD gShop.resources k) ∧
    scaledCost [("coins", 10)] 2 1 = [("coins", 10)] ∧
    scaledCost [("coins", 10)] 2 2 = [("coins", 20)] :=
  C6_upgrade_cost gShop 0 0 _ _ rfl rfl rfl (by decide) (by decide)
    (by norm_num [canAfford, scaledCost, getD, wThresh3, gShop])





theorem map_set_same {α β : Type} (h : α → β) (l : List α) (j : Nat) (x' x : α)
    (hx : l.get? j = some x) (hh : h x' = h x) : (l.set j x').map h = l.map h := by
  apply List.ext_get?
  intro k
  by_cases hk : k = j
  · subst hk
    have hlen : k < l.length := (List.get?_eq_some.mp hx).1
    rw [List.get?_map, List.get?_map, List.get?_set_eq_of_lt x' hlen, hx]
    simp [hh]
  · rw [List.get?_map, List.get?_map, List.get?_set_ne x' l (Ne.symm hk)]

theorem modifyAt_map_same {α β : Type} (h : α → β) (l : List α) (i : Nat) (f : α → α)
    (hf : ∀ x, l.get? i = some x → h (f x) = h x) :
    (modifyAt l i f).map h = l.map h := by
  unfold modifyAt
  cases hx : l.get? i with
  | none => rfl
  | some x => exact map_set_same h l i (f x) x hx (hf x hx)

theorem applyProduction_defsOf (r : String) (ws : List WorkerState) (j : Nat)
    (res : Rmap) : defsOf (applyProduction r ws j res).1 = defsOf ws := by
  unfold applyProduction defsOf
  cases ws.get? j with
  | none => rfl
  | some w =>
    by_cases h0 : w.owned == 0
    · simp [h0]
    · simp only [h0, Bool.false_eq_true, if_false]
      cases findWorkerIndex ws w.definition.produces with
      | some t =>
        simp only
        exact modifyAt_map_same _ ws t _ (fun x _ => rfl)
      | none =>
        by_cases hp : w.definition.produces == r <;> simp [hp]

theorem defsOf_set_same (ws : List WorkerState) (j : Nat) (w' w : WorkerState)
    (hx : ws.get? j = some w) (hh : w'.definition = w.definition) :
    defsOf (ws.set j w') = defsOf ws := by
  unfold defsOf
  exact map_set_same _ ws j w' w hx hh

theorem stepWorker_defsOf (now : Int) (r : String) (acc : List WorkerState × Rmap)
    (j : Nat) : defsOf (stepWorker now r acc j).1 = defsOf acc.1 := by
  cases hw : acc.1.get? j with
  | none => simp only [stepWorker, hw]
  | some w =>
    simp only [stepWorker, hw]
    by_cases hg : w.auto = true ∧ w.running = false ∧ 0 < w.owned
    · simp only [if_pos hg]
      set wstart : WorkerState := { w with running := true, endsAt := now + w.definition.prodRate } with hws
      have hset : defsOf (acc.1.set j wstart) = defsOf acc.1 :=
        defsOf_set_same acc.1 j wstart w hw rfl
      rw [if_neg (by rw [hws]; simp : ¬(wstart.running = false))]
      by_cases hb : now < wstart.endsAt
      · rw [if_pos hb]
        exact hset
      · rw [if_neg hb]
        have hpd : defsOf (applyProduction r (acc.1.set j wstart) j acc.2).1 = defsOf acc.1 := by
          rw [applyProduction_defsOf]
          exact hset
        cases hw2 : (applyProduction r (acc.1.set j wstart) j acc.2).1.get? j with
        | none => simpa only [hw2] using hpd
        | some w2 =>
          simp only [hw2]
          by_cases ha : w2.auto = true
          · rw [if_pos ha]
            show defsOf ((applyProduction r (acc.1.set j wstart) j acc.2).1.set j
              { w2 with running := true, endsAt := now + w2.definition.prodRate }) = _
            rw [defsOf_set_same _ j { w2 with running := true, endsAt := now + w2.definition.prodRate } w2 hw2 rfl]
            exact hpd
          · rw [if_neg ha]
            show defsOf ((applyProduction r (acc.1.set j wstart) j acc.2).1.set j
              { w2 with running := false }) = _
            rw [defsOf_set_same _ j { w2 with running := false } w2 hw2 rfl]
            exact hpd
    · simp only [if_neg hg]
      by_cases hrun : w.running = false
      · simp only [if_pos hrun]
      · simp only [if_neg hrun]
        by_cases hb : now < w.endsAt
        · simp only [if_pos hb]
        · simp only [if_neg hb]
          cases hw2 : (applyProduction r acc.1 j acc.2).1.get? j with
          | none => simpa only [hw2] using applyProduction_defsOf r acc.1 j acc.2
          | some w2 =>
            simp only [hw2]
            by_cases ha : w2.auto = true
            · rw [if_pos ha]
              show defsOf ((applyProduction r acc.1 j acc.2).1.set j
                { w2 with running := true, endsAt := now + w2.definition.prodRate }) = _
              rw [defsOf_set_same _ j { w2 with running := true, endsAt := now + w2.definition.prodRate } w2 hw2 rfl]
              exact applyProduction_defsOf r acc.1 j acc.2
            · rw [if_neg ha]
              show defsOf ((applyProduction r acc.1 j acc.2).1.set j
                { w2 with running := false }) = _
              rw [defsOf_set_same _ j { w2 with running := false } w2 hw2 rfl]
              exact applyProduction_defsOf r acc.1 j acc.2

theorem foldl_stepWorker_defsOf (now : Int) (r : String) (js : List Nat) :
    ∀ acc : List WorkerState × Rmap,
      defsOf ((js.foldl (stepWorker now r) acc).1) = defsOf acc.1 := by
  induction js with
  | nil => intro acc; rfl
  | cons j rest ih =>
    intro acc
    rw [List.foldl_cons, ih (stepWorker now r acc j), stepWorker_defsOf]

theorem updateIndustry_defsOf (now : Int) (ind : IndustryState) (res : Rmap) :
    defsOf (updateIndustry now ind res).1.workers = defsOf ind.workers := by
  unfold updateIndustry
  exact foldl_stepWorker_defsOf now ind.resource _ (ind.workers, res)

theorem mapRes_map_eq {α β : Type} (f : α → Rmap → α × Rmap) (h : α → β)
    (hf : ∀ x r, h (f x r).1 = h x) : ∀ (l : List α) (r : Rmap),
      ((mapRes f l r).1).map h = l.map h := by
  intro l
  induction l with
  | nil => intro r; rfl
  | cons x xs ih =>
    intro r
    show (((f x r).1 :: (mapRes f xs (f x r).2).1).map h) = _
    rw [List.map_cons, hf, ih]
    rfl

theorem update_defsList (now : Int) (g : GameState) :
    defsList (update now g) = defsList g := by
  unfold update defsList
  exact mapRes_map_eq _ _ (fun ind r => updateIndustry_defsOf now ind r) g.industries _

theorem setWorker_defsList (g : GameState) (i j : Nat) (w' w : WorkerState)
    (hw : wAt g i j = some w) (hdef : w'.definition = w.definition) :
    defsList (setWorker g i j w') = defsList g := by
  unfold wAt at hw
  cases hind : g.industries.get? i with
  | none => rw [hind] at hw; cases hw
  | some ind =>
    rw [hind] at hw
    simp only [Option.bind_eq_bind, Option.some_bind] at hw
    unfold defsList setWorker
    apply modifyAt_map_same
    intro x hx
    rw [hind] at hx
    cases hx
    show defsOf (ind.workers.set j w') = defsOf ind.workers
    exact defsOf_set_same ind.workers j w' w hw hdef

theorem applySnapWorkers_defsOf (wl : List saveWorker) (ws : List WorkerState) :
    defsOf (applySnapWorkers wl ws).1 = defsOf ws := by
  induction ws with
  | nil => rfl
  | cons w rest ih =>
    unfold applySnapWorkers
    cases lookupLast (fun sw => sw.key) wl w.definition.key with
    | none => rfl
    | some sw =>
      show defsOf (loadWorker w sw :: (applySnapWorkers wl rest).1) = _
      unfold defsOf at ih ⊢
      rw [List.map_cons, List.map_cons, ih]
      rfl

theorem applySnapIndustries_defs (il : List saveIndustry) (inds : List IndustryState) :
    ((applySnapIndustries il inds).1).map (fun ind => defsOf ind.workers) =
      inds.map (fun ind => defsOf ind.workers) := by
  induction inds with
  | nil => rfl
  | cons ind rest ih =>
    unfold applySnapIndustries
    cases lookupLast (fun si => si.key) il ind.key with
    | none => rfl
    | some si =>
      simp only
      cases (applySnapWorkers si.workers ind.workers).2 with
      | some msg =>
        simp only [List.map_cons]
        rw [show defsOf ({ ind with workers := (applySnapWorkers si.workers ind.workers).1 } : IndustryState).workers = defsOf ind.workers from applySnapWorkers_defsOf si.workers ind.workers]
      | none =>
        simp only [List.map_cons]
        rw [ih]
        rw [show defsOf ({ ind with workers := (applySnapWorkers si.workers ind.workers).1 } : IndustryState).workers = defsOf ind.workers from applySnapWorkers_defsOf si.workers ind.workers]

theorem applySnapshot_defsList (snap : saveGame) (g : GameState) :
    defsList (applySnapshot snap g).1 = defsList g := by
  unfold applySnapshot
  cases snap.resources with
  | none => rfl
  | some sres =>
    by_cases h1 : snap.industries.length ≠ g.industries.length
    · simp only [if_pos h1]
    · simp only [if_neg h1]
      by_cases h2 : snap.production.length ≠ g.production.length
      · simp only [if_pos h2]
      · simp only [if_neg h2]
        cases (applySnapIndustries snap.industries g.industries).2 with
        | some msg =>
          simp only
          show defsList { g with industries := (applySnapIndustries snap.industries g.industries).1 } = _
          unfold defsList
          exact applySnapIndustries_defs snap.industries g.industries
        | none =>
          simp only
          unfold defsList
          exact applySnapIndustries_defs snap.industries g.industries



theorem startRun_defsList (i j : Nat) (now : Int) (g : GameState) :
    defsList (startRun i j now g).1 = defsList g := by
  unfold startRun
  cases hind : g.industries.get? i with
  | none => rfl
  | some ind =>
    simp only
    cases hjw : ind.workers.get? j with
    | none => rfl
    | some w =>
      simp only
      by_cases h0 : w.owned == 0
      · simp only [if_pos h0]
      · simp only [if_neg h0]
        by_cases hr : w.running = true
        · simp only [if_pos hr]
        · simp only [if_neg hr]
          exact setWorker_defsList g i j _ w (by unfold wAt; rw [hind]; simpa using hjw) rfl

theorem buyWorker_dev (g : GameState) (i j : Nat) (ind : IndustryState) (w : WorkerState)
    (hind : g.industries.get? i = some ind) (hjw : ind.workers.get? j = some w)
    (hdev : g.devMode = true) :
    buyWorker i j g =
      (setWorker g i j { w with owned := w.owned + (if g.buyModeMax = true then (if maxAffordable w.definition.cost g.resources < 1 then 1 else maxAffordable w.definition.cost g.resources) else 1) },
       "bought " ++ toString (if g.buyModeMax = true then (if maxAffordable w.definition.cost g.resources < 1 then 1 else maxAffordable w.definition.cost g.resources) else 1)) := by
  have hcount : ¬(if g.buyModeMax = true then (if maxAffordable w.definition.cost g.resources < 1 then (1 : Int) else maxAffordable w.definition.cost g.resources) else 1) ≤ 0 := by
    by_cases hbm : g.buyModeMax = true
    · simp only [if_pos hbm]
      by_cases hlt : maxAffordable w.definition.cost g.resources < 1
      · simp [hlt]
      · simp only [if_neg hlt]
        omega
    · simp [hbm]
  unfold buyWorker
  simp only [hind, hjw, hdev, if_true]
  rw [if_neg hcount]

theorem buyWorker_max_fail (g : GameState) (i j : Nat) (ind : IndustryState)
    (w : WorkerState)
    (hind : g.industries.get? i = some ind) (hjw : ind.workers.get? j = some w)
    (hdev : g.devMode = false) (hbm : g.buyModeMax = true)
    (hm : maxAffordable w.definition.cost g.resources ≤ 0) :
    buyWorker i j g = (g, "cannot afford") := by
  unfold buyWorker
  simp only [hind, hjw, hdev, hbm, Bool.false_eq_true, if_false, if_true]
  simp [hm]

theorem buyWorker_max_ok (g : GameState) (i j : Nat) (ind : IndustryState)
    (w : WorkerState)
    (hind : g.industries.get? i = some ind) (hjw : ind.workers.get? j = some w)
    (hdev : g.devMode = false) (hbm : g.buyModeMax = true)
    (hm : 0 < maxAffordable w.definition.cost g.resources) :
    buyWorker i j g =
      (setWorker { g with resources := debit w.definition.cost (maxAffordable w.definition.cost g.resources) g.resources } i j { w with owned := w.owned + maxAffordable w.definition.cost g.resources },
       "bought " ++ toString (maxAffordable w.definition.cost g.resources)) := by
  unfold buyWorker
  simp only [hind, hjw, hdev, hbm, Bool.false_eq_true, if_false, if_true]
  rw [if_neg (by omega)]

theorem buyWorker_plain_fail (g : GameState) (i j : Nat) (ind : IndustryState)
    (w : WorkerState)
    (hind : g.industries.get? i = some ind) (hjw : ind.workers.get? j = some w)
    (hdev : g.devMode = false) (hbm : g.buyModeMax = false)
    (hca : canAfford w.definition.cost g.resources = false) :
    buyWorker i j g = (g, "cannot afford") := by
  unfold buyWorker
  simp only [hind, hjw, hdev, hbm, Bool.false_eq_true, if_false, hca, if_true]

theorem buyWorker_plain_ok (g : GameState) (i j : Nat) (ind : IndustryState)
    (w : WorkerState)
    (hind : g.industries.get? i = some ind) (hjw : ind.workers.get? j = some w)
    (hdev : g.devMode = false) (hbm : g.buyModeMax = false)
    (hca : canAfford w.definition.cost g.resources = true) :
    buyWorker i j g =
      (setWorker { g with resources := debit w.definition.cost 1 g.resources } i j { w with owned := w.owned + 1 },
       "bought " ++ toString (1 : Int)) := by
  unfold buyWorker
  simp only [hind, hjw, hdev, hbm, Bool.false_eq_true, if_false, hca, Bool.true_eq_false]
  rw [if_neg (by omega : ¬(1 : Int) ≤ 0)]

theorem upgradeWorker_fail (g : GameState) (i j : Nat) (ind : IndustryState)
    (w : WorkerState)
    (hind : g.industries.get? i = some ind) (hjw : ind.workers.get? j = some w)
    (hdev : g.devMode = false)
    (hca : canAfford (scaledCost w.definition.cost w.definition.upgradeMult w.tier)
      g.resources = false) :
    upgradeWorker i j g = (g, "cannot afford upgrade") := by
  unfold upgradeWorker
  simp only [hind, hjw]
  rw [if_pos ⟨hdev, hca⟩]

theorem upgradeWorker_ok (g : GameState) (i j : Nat) (ind : IndustryState)
    (w : WorkerState)
    (hind : g.industries.get? i = some ind) (hjw : ind.workers.get? j = some w)
    (hdev : g.devMode = false)
    (hca : canAfford (scaledCost w.definition.cost w.definition.upgradeMult w.tier)
      g.resources = true) :
    upgradeWorker i j g =
      (setWorker { g with resources := debit (scaledCost w.definition.cost w.definition.upgradeMult w.tier) 1 g.resources } i j { w with tier := w.tier + 1, auto := if 0 < w.definition.autoTier ∧ w.definition.autoTier ≤ w.tier + 1 then true else w.auto },
       "upgraded") := by
  unfold upgradeWorker
  simp only [hind, hjw]
  rw [if_neg (by rw [hca]; rintro ⟨-, hc⟩; cases hc)]
  simp only [hdev, Bool.false_eq_true, if_false]

theorem upgradeWorker_dev (g : GameState) (i j : Nat) (ind : IndustryState)
    (w : WorkerState)
    (hind : g.industries.get? i = some ind) (hjw : ind.workers.get? j = some w)
    (hdev : g.devMode = true) :
    upgradeWorker i j g =
      (setWorker g i j { w with tier := w.tier + 1, auto := if 0 < w.definition.autoTier ∧ w.definition.autoTier ≤ w.tier + 1 then true else w.auto },
       "upgraded") := by
  unfold upgradeWorker
  simp only [hind, hjw]
  rw [if_neg (by rw [hdev]; rintro ⟨hc, -⟩; cases hc)]
  simp only [hdev, if_true]



theorem buyWorker_defsList (i j : Nat) (g : GameState) :
    defsList (buyWorker i j g).1 = defsList g := by
  cases hind : g.industries.get? i with
  | none => unfold buyWorker; rw [hind]
  | some ind =>
    cases hjw : ind.workers.get? j with
    | none => unfold buyWorker; rw [hind]; simp only; rw [hjw]
    | some w =>
      have hwat : wAt g i j = some w := by unfold wAt; rw [hind]; simpa using hjw
      by_cases hdev : g.devMode = true
      · rw [buyWorker_dev g i j ind w hind hjw hdev]
        exact setWorker_defsList g i j _ w hwat rfl
      · have hdev' : g.devMode = false := by
          cases hd : g.devMode
          · rfl
          · exact absurd hd hdev
        by_cases hbm : g.buyModeMax = true
        · by_cases hm : maxAffordable w.definition.cost g.resources ≤ 0
          · rw [buyWorker_max_fail g i j ind w hind hjw hdev' hbm hm]
          · rw [buyWorker_max_ok g i j ind w hind hjw hdev' hbm (by omega)]
            exact setWorker_defsList _ i j _ w (by unfold wAt; rw [show ({ g with resources := debit w.definition.cost (maxAffordable w.definition.cost g.resources) g.resources } : GameState).industries = g.industries from rfl, hind]; simpa using hjw) rfl
        · have hbm' : g.buyModeMax = false := by
            cases hb : g.buyModeMax
            · rfl
            · exact absurd hb hbm
          cases hca : canAfford w.definition.cost g.resources with
          | false => rw [buyWorker_plain_fail g i j ind w hind hjw hdev' hbm' hca]
          | true =>
            rw [buyWorker_plain_ok g i j ind w hind hjw hdev' hbm' hca]
            exact setWorker_defsList _ i j _ w (by unfold wAt; rw [show ({ g with resources := debit w.definition.cost 1 g.resources } : GameState).industries = g.industries from rfl, hind]; simpa using hjw) rfl

theorem upgradeWorker_defsList (i j : Nat) (g : GameState) :
    defsList (upgradeWorker i j g).1 = defsList g := by
  cases hind : g.industries.get? i with
  | none => unfold upgradeWorker; rw [hind]
  | some ind =>
    cases hjw : ind.workers.get? j with
    | none => unfold upgradeWorker; rw [hind]; simp only; rw [hjw]
    | some w =>
      have hwat : wAt g i j = some w := by unfold wAt; rw [hind]; simpa using hjw
      by_cases hdev : g.devMode = true
      · rw [upgradeWorker_dev g i j ind w hind hjw hdev]
        exact setWorker_defsList g i j _ w hwat rfl
      · have hdev' : g.devMode = false := by
          cases hd : g.devMode
          · rfl
          · exact absurd hd hdev
        cases hca : canAfford (scaledCost w.definition.cost w.definition.upgradeMult w.tier) g.resources with
        | false => rw [upgradeWorker_fail g i j ind w hind hjw hdev' hca]
        | true =>
          rw [upgradeWorker_ok g i j ind w hind hjw hdev' hca]
          exact setWorker_defsList _ i j _ w (by unfold wAt; rw [show ({ g with resources := debit (scaledCost w.definition.cost w.definition.upgradeMult w.tier) 1 g.resources } : GameState).industries = g.industries from rfl, hind]; simpa using hjw) rfl

theorem costWF_of_defsList (g g' : GameState) (hd : defsList g' = defsList g)
    (h : costWF g) : costWF g' := by
  intro ind' hind' w' hw'
  obtain ⟨i, hi⟩ := List.mem_iff_get?.mp hind'
  have hvi : (defsList g').get? i = some (defsOf ind'.workers) := by
    unfold defsList
    rw [List.get?_map, hi]
    rfl
  rw [hd] at hvi
  unfold defsList at hvi
  rw [List.get?_map] at hvi
  cases hgi : g.industries.get? i with
  | none => rw [hgi] at hvi; cases hvi
  | some ind =>
    rw [hgi] at hvi
    have hdefs : defsOf ind.workers = defsOf ind'.workers := by
      simpa using hvi
    have hdm : w'.definition ∈ defsOf ind.workers := by
      rw [hdefs]
      exact List.mem_map_of_mem _ hw'
    unfold defsOf at hdm
    obtain ⟨w, hwmem, hwdef⟩ := List.mem_map.mp hdm
    have := h ind (List.get?_mem hgi) w hwmem
    rw [hwdef] at this
    exact this

theorem setK_mem_self (m : Rmap) (k : String) (v : Int) : (k, v) ∈ setK m k v := by
  induction m with
  | nil => exact List.mem_cons_self _ _
  | cons e rest ih =>
    unfold setK
    by_cases he : e.1 == k
    · simp only [he, if_true]
      exact List.mem_cons_self _ _
    · simp only [he, Bool.false_eq_true, if_false]
      exact List.mem_cons_of_mem e ih

theorem setK_keys_sub (m : Rmap) (k : String) (v : Int) (x : String)
    (hx : x ∈ (setK m k v).map Prod.fst) : x ∈ m.map Prod.fst ∨ x = k := by
  induction m with
  | nil =>
    simp only [setK, List.map_cons, List.map_nil] at hx
    rcases List.mem_cons.mp hx with h | h
    · exact Or.inr h
    · cases h
  | cons e rest ih =>
    unfold setK at hx
    by_cases he : e.1 == k
    · simp only [he, if_true, List.map_cons] at hx
      rcases List.mem_cons.mp hx with h | h
      · exact Or.inr h
      · exact Or.inl (List.mem_cons_of_mem _ h)
    · simp only [he, Bool.false_eq_true, if_false, List.map_cons] at hx
      rcases List.mem_cons.mp hx with h | h
      · exact Or.inl (by rw [List.map_cons]; exact h ▸ List.mem_cons_self _ _)
      · rcases ih h with h2 | h2
        · exact Or.inl (by rw [List.map_cons]; exact List.mem_cons_of_mem _ h2)
        · exact Or.inr h2

theorem setK_keys_nodup (m : Rmap) (k : String) (v : Int)
    (h : (m.map Prod.fst).Nodup) : ((setK m k v).map Prod.fst).Nodup := by
  induction m with
  | nil => simp [setK]
  | cons e rest ih =>
    obtain ⟨hhead, hrest⟩ := List.nodup_cons.mp h
    unfold setK
    by_cases he : e.1 == k
    · simp only [he, if_true, List.map_cons]
      refine List.nodup_cons.mpr ⟨?_, hrest⟩
      have : e.1 = k := by simpa using he
      rw [← this]
      exact hhead
    · simp only [he, Bool.false_eq_true, if_false, List.map_cons]
      refine List.nodup_cons.mpr ⟨?_, ih hrest⟩
      intro hc
      rcases setK_keys_sub rest k v e.1 hc with h2 | h2
      · exact hhead h2
      · exact absurd (by simpa using h2 : (e.1 == k) = true) (by simpa using he)



theorem loadConfig_eq (cfg cfg' : GameConfig) (h : loadConfig cfg = some cfg') :
    configValid cfg ∧ cfg' = normalizeConfig cfg := by
  unfold loadConfig at h
  by_cases hv : configValid cfg
  · rw [if_pos hv] at h
    exact ⟨hv, (Option.some.inj h).symm⟩
  · rw [if_neg hv] at h
    cases h

theorem buildGame_costWF (cfg cfg' : GameConfig) (now : Int) (g : GameState)
    (hwf : cfgCostsWF cfg) (hlc : loadConfig cfg = some cfg')
    (hbg : buildGame now cfg' = some g) : costWF g := by
  obtain ⟨hv, rfl⟩ := loadConfig_eq cfg cfg' hlc
  unfold buildGame at hbg
  by_cases hlen : ((normalizeConfig cfg).industries.map (fun ind => ({ key := ind.key, name := ind.name, resource := ind.resource, workers := ind.workers.enum.map (fun ie => { definition := ie.2, owned := if ie.1 == 0 then (1 : Int) else 0, tier := 1, running := false, endsAt := 0, auto := false }) } : IndustryState))).length > 5
  · rw [if_pos hlen] at hbg
    cases hbg
  · rw [if_neg hlen] at hbg
    have hg := (Option.some.inj hbg).symm
    subst hg
    intro ind' hind' w hw
    simp only at hind'
    obtain ⟨indc, hindc, hind'eq⟩ := List.mem_map.mp hind'
    rw [← hind'eq] at hw
    simp only at hw
    obtain ⟨ie, hie, hweq⟩ := List.mem_map.mp hw
    have hwdef : w.definition = ie.2 := by rw [← hweq]
    have hie2 : ie.2 ∈ indc.workers := by
      obtain ⟨hlt, heq⟩ := List.mem_enum hie
      rw [heq]
      exact List.getElem_mem hlt
    unfold normalizeConfig at hindc
    simp only at hindc
    obtain ⟨ind0, hind0, hindceq⟩ := List.mem_map.mp hindc
    rw [← hindceq] at hie2
    simp only at hie2
    obtain ⟨w0, hw0, hw0eq⟩ := List.mem_map.mp hie2
    have hcost : w.definition.cost = setK w0.cost "coins" w0.level := by
      rw [hwdef, ← hw0eq]
    have hlevel : 0 < w0.level := by
      have := (hv.2.1 ind0 hind0).2.2.2 w0 hw0
      exact this.2.2.2.2.2
    constructor
    · refine ⟨("coins", w0.level), ?_, hlevel⟩
      rw [hcost]
      exact setK_mem_self w0.cost "coins" w0.level
    · rw [hcost]
      exact setK_keys_nodup w0.cost "coins" w0.level (hwf ind0 hind0 w0 hw0)

theorem reachable_costWF (g : GameState) (h : Reachable g) : costWF g := by
  induction h with
  | init cfg cfg' now g hwf hlc hbg => exact buildGame_costWF cfg cfg' now g hwf hlc hbg
  | step_update now g hg ih => exact costWF_of_defsList g _ (update_defsList now g) ih
  | step_start i j now g hg ih =>
    exact costWF_of_defsList g _ (startRun_defsList i j now g) ih
  | step_buy i j g hg ih => exact costWF_of_defsList g _ (buyWorker_defsList i j g) ih
  | step_upgrade i j g hg ih =>
    exact costWF_of_defsList g _ (upgradeWorker_defsList i j g) ih
  | step_toggleMax g hg ih => exact costWF_of_defsList g _ rfl ih
  | step_load snap g hg ih =>
    exact costWF_of_defsList g _ (applySnapshot_defsList snap g) ih



theorem getD_eq_zero_of_not_mem (m : Rmap) (k : String)
    (hk : k ∉ m.map Prod.fst) : getD m k = 0 := by
  induction m with
  | nil => rfl
  | cons e rest ih =>
    rw [getD_cons, if_neg (fun hc => hk (by rw [List.map_cons, ← hc]; exact List.mem_cons_self _ _))]
    exact ih (fun hc => hk (by rw [List.map_cons]; exact List.mem_cons_of_mem _ hc))

theorem bought_ne_cannot (s : String) : ("bought " ++ s) ≠ "cannot afford" := by
  intro h
  have hd := congrArg String.data h
  rw [String.data_append] at hd
  have hb : "bought ".data = 'b' :: "ought ".data := rfl
  have hc : "cannot afford".data = 'c' :: "annot afford".data := rfl
  rw [hb, hc, List.cons_append] at hd
  exact absurd (List.cons.inj hd).1 (by decide)

theorem maxAffordable_nonpos_iff (cost res : Rmap)
    (hnn : ∀ k, 0 ≤ getD res k) (hex : ∃ e ∈ cost, 0 < e.2) :
    maxAffordable cost res ≤ 0 ↔ ∃ e ∈ cost, getD res e.1 < e.2 := by
  constructor
  · intro hm
    obtain ⟨e, he, hpos, heq⟩ := maxAffordable_is_quot cost res hex
    refine ⟨e, he, ?_⟩
    by_contra hc
    push_neg at hc
    have h1 : (1 : Int) ≤ Int.tdiv (getD res e.1) e.2 := by
      rw [le_tdiv_iff_mul_le _ _ 1 (hnn e.1) hpos, one_mul]
      exact hc
    rw [heq] at hm
    omega
  · rintro ⟨e, he, hlt⟩
    have hpos : 0 < e.2 := lt_of_le_of_lt (hnn e.1) hlt
    have h1 : Int.tdiv (getD res e.1) e.2 ≤ 0 := by
      by_contra hc
      push_neg at hc
      have := (le_tdiv_iff_mul_le (getD res e.1) e.2 1 (hnn e.1) hpos).mp hc
      rw [one_mul] at this
      omega
    have := maxAffordable_le cost res e he hpos
    omega

theorem debit_nonneg (cost res : Rmap) (c : Int)
    (hnod : (cost.map Prod.fst).Nodup) (hc : 0 < c)
    (hnn : ∀ k, 0 ≤ getD res k)
    (hcover : ∀ e ∈ cost, 0 < e.2 → c * e.2 ≤ getD res e.1) :
    ∀ k, 0 ≤ getD (debit cost c res) k := by
  intro k
  rw [getD_debit cost c res k hnod]
  by_cases hk : k ∈ cost.map Prod.fst
  · obtain ⟨e, he, hke⟩ := List.mem_map.mp hk
    have hgk : getD cost k = e.2 := by
      rw [← hke]
      exact getD_eq_of_mem cost e hnod he
    rw [hgk, ← hke]
    by_cases hpos : 0 < e.2
    · have := hcover e he hpos
      omega
    · push_neg at hpos
      have h1 : c * e.2 ≤ 0 := mul_nonpos_of_nonneg_of_nonpos (le_of_lt hc) hpos
      have := hnn e.1
      omega
  · rw [getD_eq_zero_of_not_mem cost k hk]
    have := hnn k
    omega



/-- **C3.** Outside developer mode, on any reachable state whose ledger is
everywhere non-negative: `BuyWorker` (resp. `UpgradeWorker`) fails with its
cannot-afford status exactly when some entry of the (scaled) cost table
exceeds the corresponding balance; a failed call returns the state
unchanged; and after any call the ledger is still everywhere
non-negative. -/
theorem C3_ledger_nonneg (g : GameState) (hg : Reachable g)
    (hnn : ∀ k, 0 ≤ getD g.resources k)
    (i j : Nat) (ind : IndustryState) (w : WorkerState)
    (hind : g.industries.get? i = some ind) (hjw : ind.workers.get? j = some w)
    (hdev : g.devMode = false) :
    (((buyWorker i j g).2 = "cannot afford" ↔
        ∃ e ∈ w.definition.cost, getD g.resources e.1 < e.2) ∧
     ((buyWorker i j g).2 = "cannot afford" → (buyWorker i j g).1 = g) ∧
     (∀ k, 0 ≤ getD (buyWorker i j g).1.resources k)) ∧
    (((upgradeWorker i j g).2 = "cannot afford upgrade" ↔
        ∃ e ∈ scaledCost w.definition.cost w.definition.upgradeMult w.tier,
          getD g.resources e.1 < e.2) ∧
     ((upgradeWorker i j g).2 = "cannot afford upgrade" → (upgradeWorker i j g).1 = g) ∧
     (∀ k, 0 ≤ getD (upgradeWorker i j g).1.resources k)) := by
  obtain ⟨hex, hnod⟩ := reachable_costWF g hg ind (List.get?_mem hind) w (List.get?_mem hjw)
  constructor
  · -- BuyWorker
    by_cases hbm : g.buyModeMax = true
    · by_cases hm : maxAffordable w.definition.cost g.resources ≤ 0
      · rw [buyWorker_max_fail g i j ind w hind hjw hdev hbm hm]
        refine ⟨?_, fun _ => rfl, fun k => hnn k⟩
        rw [← maxAffordable_nonpos_iff w.definition.cost g.resources hnn hex]
        exact iff_of_true rfl hm
      · push_neg at hm
        rw [buyWorker_max_ok g i j ind w hind hjw hdev hbm hm]
        have hnoex : ¬∃ e ∈ w.definition.cost, getD g.resources e.1 < e.2 := by
          rw [← maxAffordable_nonpos_iff w.definition.cost g.resources hnn hex]
          omega
        refine ⟨iff_of_false (bought_ne_cannot _) hnoex, ?_, ?_⟩
        · intro hmsg
          exact absurd hmsg (bought_ne_cannot _)
        · intro k
          rw [setWorker_resources]
          show 0 ≤ getD (debit w.definition.cost (maxAffordable w.definition.cost g.resources) g.resources) k
          refine debit_nonneg _ _ _ hnod hm hnn ?_ k
          intro e he hpos
          have := maxAffordable_le w.definition.cost g.resources e he hpos
          rw [le_tdiv_iff_mul_le _ _ _ (hnn e.1) hpos] at this
          exact this
    · have hbm' : g.buyModeMax = false := by
        cases hb : g.buyModeMax
        · rfl
        · exact absurd hb hbm
      cases hca : canAfford w.definition.cost g.resources with
      | false =>
        rw [buyWorker_plain_fail g i j ind w hind hjw hdev hbm' hca]
        refine ⟨?_, fun _ => rfl, fun k => hnn k⟩
        rw [← canAfford_eq_false_iff]
        exact iff_of_true rfl hca
      | true =>
        rw [buyWorker_plain_ok g i j ind w hind hjw hdev hbm' hca]
        have hall := (canAfford_iff w.definition.cost g.resources).mp hca
        have hnoex : ¬∃ e ∈ w.definition.cost, getD g.resources e.1 < e.2 := by
          rintro ⟨e, he, hlt⟩
          exact absurd (hall e he) (not_le.mpr hlt)
        refine ⟨iff_of_false (bought_ne_cannot _) hnoex, ?_, ?_⟩
        · intro hmsg
          exact absurd hmsg (bought_ne_cannot _)
        · intro k
          rw [setWorker_resources]
          show 0 ≤ getD (debit w.definition.cost 1 g.resources) k
          refine debit_nonneg _ _ _ hnod (by omega) hnn ?_ k
          intro e he hpos
          rw [one_mul]
          exact hall e he
  · -- UpgradeWorker
    have hscnod : ((scaledCost w.definition.cost w.definition.upgradeMult w.tier).map Prod.fst).Nodup := by
      rw [scaledCost_keys]
      exact hnod
    cases hca : canAfford (scaledCost w.definition.cost w.definition.upgradeMult w.tier) g.resources with
    | false =>
      rw [upgradeWorker_fail g i j ind w hind hjw hdev hca]
      refine ⟨?_, fun _ => rfl, fun k => hnn k⟩
      rw [← canAfford_eq_false_iff]
      exact iff_of_true rfl hca
    | true =>
      rw [upgradeWorker_ok g i j ind w hind hjw hdev hca]
      have hall := (canAfford_iff _ g.resources).mp hca
      have hnoex : ¬∃ e ∈ scaledCost w.definition.cost w.definition.upgradeMult w.tier,
          getD g.resources e.1 < e.2 := by
        rintro ⟨e, he, hlt⟩
        exact absurd (hall e he) (not_le.mpr hlt)
      have hne : ("upgraded" : String) ≠ "cannot afford upgrade" := by decide
      refine ⟨iff_of_false hne hnoex, ?_, ?_⟩
      · intro hmsg
        exact absurd hmsg hne
      · intro k
        rw [setWorker_resources]
        show 0 ≤ getD (debit (scaledCost w.definition.cost w.definition.upgradeMult w.tier) 1 g.resources) k
        refine debit_nonneg _ _ _ hscnod (by omega) hnn ?_ k
        intro e he hpos
        rw [one_mul]
        exact hall e he



/-- Witness for C3 at the reachable state `gAuto` (one worker, cost
`[("coins", 1)]`, 100 coins). -/
theorem C3_ledger_nonneg_witness :
    (((buyWorker 0 0 gAuto).2 = "cannot afford" ↔
        ∃ e ∈ ([("coins", 1)] : Rmap), getD gAuto.resources e.1 < e.2) ∧
     ((buyWorker 0 0 gAuto).2 = "cannot afford" → (buyWorker 0 0 gAuto).1 = gAuto) ∧
     (∀ k, 0 ≤ getD (buyWorker 0 0 gAuto).1.resources k)) ∧
    (((upgradeWorker 0 0 gAuto).2 = "cannot afford upgrade" ↔
        ∃ e ∈ scaledCost ([("coins", 1)] : Rmap) 2 1, getD gAuto.resources e.1 < e.2) ∧
     ((upgradeWorker 0 0 gAuto).2 = "cannot afford upgrade" →
        (upgradeWorker 0 0 gAuto).1 = gAuto) ∧
     (∀ k, 0 ≤ getD (upgradeWorker 0 0 gAuto).1.resources k)) :=
  C3_ledger_nonneg gAuto
    (Reachable.init cfgAuto (normalizeConfig cfgAuto) 0 gAuto (by decide) (by decide)
      (by decide))
    (by
      intro k
      show 0 ≤ getD [("coins", 100)] k
      rw [getD_cons]
      by_cases h : "coins" = k
      · simp [h]
      · simp [h, getD_nil])
    0 0 _ _ rfl rfl rfl




theorem asw_err_none_iff (wl : List saveWorker) (ws : List WorkerState) :
    (applySnapWorkers wl ws).2 = none ↔
      ∀ w ∈ ws, (lookupLast (fun sw => sw.key) wl w.definition.key).isSome := by
  induction ws with
  | nil => simp [applySnapWorkers]
  | cons w rest ih =>
    unfold applySnapWorkers
    cases hl : lookupLast (fun sw => sw.key) wl w.definition.key with
    | none =>
      simp only
      constructor
      · intro h; cases h
      · intro h
        have := h w (List.mem_cons_self w rest)
        rw [hl] at this
        cases this
    | some sw =>
      simp only
      rw [ih]
      constructor
      · intro h x hx
        rcases List.mem_cons.mp hx with hh | hh
        · subst hh
          rw [hl]
          rfl
        · exact h x hh
      · intro h x hx
        exact h x (List.mem_cons_of_mem w hx)

theorem asw_get?_ok (wl : List saveWorker) (ws : List WorkerState)
    (h : (applySnapWorkers wl ws).2 = none) :
    ∀ (j : Nat) (w : WorkerState), ws.get? j = some w →
      ∃ sw, lookupLast (fun sw => sw.key) wl w.definition.key = some sw ∧
        (applySnapWorkers wl ws).1.get? j = some (loadWorker w sw) := by
  induction ws with
  | nil => intro j w hj; cases hj
  | cons w0 rest ih =>
    intro j w hj
    unfold applySnapWorkers at h ⊢
    cases hl : lookupLast (fun sw => sw.key) wl w0.definition.key with
    | none =>
      rw [hl] at h
      cases h
    | some sw0 =>
      rw [hl] at h
      simp only at h ⊢
      cases j with
      | zero =>
        cases hj
        exact ⟨sw0, hl, rfl⟩
      | succ j' =>
        simp only [List.get?_cons_succ] at hj ⊢
        exact ih h j' w hj

theorem asi_err_none_iff (il : List saveIndustry) (inds : List IndustryState) :
    (applySnapIndustries il inds).2 = none ↔
      ∀ ind ∈ inds, ∃ si, lookupLast (fun s => s.key) il ind.key = some si ∧
        (applySnapWorkers si.workers ind.workers).2 = none := by
  induction inds with
  | nil => simp [applySnapIndustries]
  | cons ind rest ih =>
    unfold applySnapIndustries
    cases hl : lookupLast (fun s => s.key) il ind.key with
    | none =>
      simp only
      constructor
      · intro h; cases h
      · intro h
        obtain ⟨si, hsi, -⟩ := h ind (List.mem_cons_self ind rest)
        rw [hl] at hsi
        cases hsi
    | some si =>
      simp only
      cases hw : (applySnapWorkers si.workers ind.workers).2 with
      | some msg =>
        simp only
        constructor
        · intro h; cases h
        · intro h
          obtain ⟨si', hsi', hok⟩ := h ind (List.mem_cons_self ind rest)
          rw [hl] at hsi'
          cases hsi'
          rw [hw] at hok
          cases hok
      | none =>
        simp only
        rw [ih]
        constructor
        · intro h x hx
          rcases List.mem_cons.mp hx with hh | hh
          · subst hh
            exact ⟨si, hl, hw⟩
          · exact h x hh
        · intro h x hx
          exact h x (List.mem_cons_of_mem ind hx)

theorem asi_get?_ok (il : List saveIndustry) (inds : List IndustryState)
    (h : (applySnapIndustries il inds).2 = none) :
    ∀ (i : Nat) (ind : IndustryState), inds.get? i = some ind →
      ∃ si, lookupLast (fun s => s.key) il ind.key = some si ∧
        (applySnapIndustries il inds).1.get? i =
          some { ind with workers := (applySnapWorkers si.workers ind.workers).1 } := by
  induction inds with
  | nil => intro i ind hi; cases hi
  | cons ind0 rest ih =>
    intro i ind hi
    unfold applySnapIndustries at h ⊢
    cases hl : lookupLast (fun s => s.key) il ind0.key with
    | none =>
      rw [hl] at h
      cases h
    | some si0 =>
      rw [hl] at h
      simp only at h ⊢
      cases hw : (applySnapWorkers si0.workers ind0.workers).2 with
      | some msg =>
        rw [hw] at h
        cases h
      | none =>
        rw [hw] at h
        simp only at h ⊢
        cases i with
        | zero =>
          cases hi
          exact ⟨si0, hl, rfl⟩
        | succ i' =>
          simp only [List.get?_cons_succ] at hi ⊢
          exact ih h i' ind hi



theorem applySnapshot_some_eq (sInds : List saveIndustry) (sres : Rmap)
    (sProd : List saveProduction) (sBm sDv : Bool) (sSa sSv : Int) (g : GameState) :
    applySnapshot ⟨sInds, some sres, sProd, sBm, sDv, sSa, sSv⟩ g =
      (if sInds.length ≠ g.industries.length then (g, some "save industries mismatch")
       else if sProd.length ≠ g.production.length then (g, some "save production mismatch")
       else
         match (applySnapIndustries sInds g.industries).2 with
         | some msg =>
           ({ g with industries := (applySnapIndustries sInds g.industries).1 }, some msg)
         | none =>
           ({ industries := (applySnapIndustries sInds g.industries).1
              resources := sres
              production := List.zipWith (fun pr sp => { pr with nextAt := sp.nextAt })
                g.production sProd
              buyModeMax := sBm
              devMode := sDv }, none)) := rfl

/-- **C10.** `applySnapshot` succeeds exactly when the snapshot's resource
map is present, its industry and production counts match the live state's,
and every live industry key and every live worker key resolves in the
snapshot (last occurrence wins, as Go map insertion does); on success the
recorded owned-counts and tiers are written verbatim (no range validation),
the resource map is installed verbatim, next-fire timestamps are copied
positionally, and both mode flags are taken from the snapshot. -/
theorem C10_load_validation (snap : saveGame) (g : GameState) :
    ((applySnapshot snap g).2 = none ↔ snapStructOK snap g) ∧
    ((applySnapshot snap g).2 = none →
      (snap.resources = some (applySnapshot snap g).1.resources ∧
       (applySnapshot snap g).1.buyModeMax = snap.buyModeMax ∧
       (applySnapshot snap g).1.devMode = snap.devMode ∧
       (∀ idx p sp, g.production.get? idx = some p → snap.production.get? idx = some sp →
         (applySnapshot snap g).1.production.get? idx = some { p with nextAt := sp.nextAt }) ∧
       ∀ i ind, g.industries.get? i = some ind →
         ∃ si, lookupLast (fun s => s.key) snap.industries ind.key = some si ∧
           ∃ ind', (applySnapshot snap g).1.industries.get? i = some ind' ∧
             ind'.key = ind.key ∧
             ∀ j w, ind.workers.get? j = some w →
               ∃ sw, lookupLast (fun sw => sw.key) si.workers w.definition.key = some sw ∧
                 ind'.workers.get? j = some (loadWorker w sw) ∧
                 (loadWorker w sw).owned = sw.owned ∧ (loadWorker w sw).tier = sw.tier)) := by
  obtain ⟨sInds, sRes, sProd, sBm, sDv, sSa, sSv⟩ := snap
  cases sRes with
  | none =>
    have happ : applySnapshot ⟨sInds, none, sProd, sBm, sDv, sSa, sSv⟩ g =
        (g, some "save missing resources") := rfl
    rw [happ]
    refine ⟨?_, ?_⟩
    · constructor
      · intro h; cases h
      · intro h
        exact absurd rfl h.1
    · intro h; cases h
  | some sres =>
    rw [applySnapshot_some_eq]
    by_cases h1 : sInds.length ≠ g.industries.length
    · rw [if_pos h1]
      refine ⟨?_, ?_⟩
      · constructor
        · intro h; cases h
        · intro h
          exact absurd h.2.1 h1
      · intro h; cases h
    · rw [if_neg h1]
      by_cases h2 : sProd.length ≠ g.production.length
      · rw [if_pos h2]
        refine ⟨?_, ?_⟩
        · constructor
          · intro h; cases h
          · intro h
            exact absurd h.2.2.1 h2
        · intro h; cases h
      · rw [if_neg h2]
        have hstruct_iff : (applySnapIndustries sInds g.industries).2 = none ↔
            ∀ ind ∈ g.industries, ∃ si,
              lookupLast (fun s => s.key) sInds ind.key = some si ∧
              ∀ w ∈ ind.workers,
                (lookupLast (fun sw => sw.key) si.workers w.definition.key).isSome := by
          rw [asi_err_none_iff]
          constructor
          · intro h ind hind
            obtain ⟨si, hsi, hok⟩ := h ind hind
            exact ⟨si, hsi, (asw_err_none_iff si.workers ind.workers).mp hok⟩
          · intro h ind hind
            obtain ⟨si, hsi, hok⟩ := h ind hind
            exact ⟨si, hsi, (asw_err_none_iff si.workers ind.workers).mpr hok⟩
        cases hasi : (applySnapIndustries sInds g.industries).2 with
        | some msg =>
          refine ⟨?_, ?_⟩
          · constructor
            · intro h; exact Option.noConfusion h
            · intro h
              have := hstruct_iff.mpr h.2.2.2
              rw [hasi] at this
              cases this
          · intro h; exact Option.noConfusion h
        | none =>
          refine ⟨?_, ?_⟩
          · exact iff_of_true rfl (by
              unfold snapStructOK
              exact ⟨fun hc => Option.noConfusion hc, not_not.mp h1, not_not.mp h2,
                hstruct_iff.mp hasi⟩)
          · intro _
            refine ⟨?_, ?_, ?_, ?_, ?_⟩
            · exact rfl
            · exact rfl
            · exact rfl
            · intro idx p sp hp hsp
              show (List.zipWith (fun pr sp => { pr with nextAt := sp.nextAt })
                g.production sProd).get? idx = _
              rw [List.get?_zipWith', hp, hsp]
              rfl
            · intro i ind hind
              obtain ⟨si, hsi, hgeti⟩ := asi_get?_ok sInds g.industries hasi i ind hind
              refine ⟨si, hsi,
                { ind with workers := (applySnapWorkers si.workers ind.workers).1 },
                ?_, rfl, ?_⟩
              · show (applySnapIndustries sInds g.industries).1.get? i = _
                exact hgeti
              have hswnone : (applySnapWorkers si.workers ind.workers).2 = none := by
                obtain ⟨si', hsi', hok⟩ :=
                  (asi_err_none_iff sInds g.industries).mp hasi ind (List.get?_mem hind)
                rw [hsi] at hsi'
                cases hsi'
                exact hok
              intro j w hjw
              obtain ⟨sw, hsw, hgetj⟩ := asw_get?_ok si.workers ind.workers hswnone j w hjw
              exact ⟨sw, hsw, hgetj, rfl, rfl⟩


/-- Witness for C10: a structurally valid snapshot recording negative
owned-counts, a zero/negative tier and a negative balance loads
successfully and verbatim. -/
theorem C10_load_validation_witness :
    snapNeg.resources = some (applySnapshot snapNeg gTwo).1.resources ∧
    (applySnapshot snapNeg gTwo).1.buyModeMax = snapNeg.buyModeMax ∧
    (applySnapshot snapNeg gTwo).1.devMode = snapNeg.devMode ∧
    (∀ idx p sp, gTwo.production.get? idx = some p → snapNeg.production.get? idx = some sp →
      (applySnapshot snapNeg gTwo).1.production.get? idx = some { p with nextAt := sp.nextAt }) ∧
    ∀ i ind, gTwo.industries.get? i = some ind →
      ∃ si, lookupLast (fun s => s.key) snapNeg.industries ind.key = some si ∧
        ∃ ind', (applySnapshot snapNeg gTwo).1.industries.get? i = some ind' ∧
          ind'.key = ind.key ∧
          ∀ j w, ind.workers.get? j = some w →
            ∃ sw, lookupLast (fun sw => sw.key) si.workers w.definition.key = some sw ∧
              ind'.workers.get? j = some (loadWorker w sw) ∧
              (loadWorker w sw).owned = sw.owned ∧ (loadWorker w sw).tier = sw.tier :=
  (C10_load_validation snapNeg gTwo).2 (by decide)



theorem lookupLast_self {α : Type} (key : α → String) (l : List α)
    (hnod : (l.map key).Nodup) (x : α) (hx : x ∈ l) :
    lookupLast key l (key x) = some x := by
  unfold lookupLast
  have hxrev : x ∈ l.reverse := List.mem_reverse.mpr hx
  have hsome : (l.reverse.find? (fun e => key e == key x)).isSome := by
    rw [List.find?_isSome]
    exact ⟨x, hxrev, by simp⟩
  obtain ⟨y, hy⟩ := Option.isSome_iff_exists.mp hsome
  have hymem : y ∈ l.reverse := List.mem_of_find?_eq_some hy
  have hykey : key y = key x := by
    have := List.find?_some hy
    simpa using this
  have hyx : y = x := by
    refine List.inj_on_of_nodup_map ?_ (List.mem_reverse.mp hymem) hx hykey
    exact hnod
  rw [hy, hyx]

theorem asw_length (wl : List saveWorker) (ws : List WorkerState) :
    (applySnapWorkers wl ws).1.length = ws.length := by
  induction ws with
  | nil => rfl
  | cons w rest ih =>
    unfold applySnapWorkers
    cases lookupLast (fun sw => sw.key) wl w.definition.key with
    | none => rfl
    | some sw =>
      show (loadWorker w sw :: (applySnapWorkers wl rest).1).length = _
      rw [List.length_cons, ih]
      rfl

theorem asi_length (il : List saveIndustry) (inds : List IndustryState) :
    (applySnapIndustries il inds).1.length = inds.length := by
  induction inds with
  | nil => rfl
  | cons ind rest ih =>
    unfold applySnapIndustries
    cases lookupLast (fun s => s.key) il ind.key with
    | none => rfl
    | some si =>
      simp only
      cases (applySnapWorkers si.workers ind.workers).2 with
      | some msg => rfl
      | none =>
        show (_ :: (applySnapIndustries il rest).1).length = _
        rw [List.length_cons, ih]
        rfl

theorem zipWith_self_nextAt (l : List PassiveProductionState) :
    List.zipWith (fun pr sp => { pr with nextAt := sp.nextAt }) l
      (l.map (fun p => ({ nextAt := p.nextAt } : saveProduction))) = l := by
  induction l with
  | nil => rfl
  | cons p rest ih =>
    rw [List.map_cons, List.zipWith_cons_cons, ih]

theorem applySnapshot_build (snap : saveGame) (g : GameState) (sres : Rmap)
    (hres : snap.resources = some sres)
    (h1 : snap.industries.length = g.industries.length)
    (h2 : snap.production.length = g.production.length)
    (hasi : (applySnapIndustries snap.industries g.industries).2 = none) :
    applySnapshot snap g =
      ({ industries := (applySnapIndustries snap.industries g.industries).1
         resources := sres
         production := List.zipWith (fun pr sp => { pr with nextAt := sp.nextAt })
           g.production snap.production
         buyModeMax := snap.buyModeMax
         devMode := snap.devMode }, none) := by
  obtain ⟨sInds, sRes, sProd, sBm, sDv, sSa, sSv⟩ := snap
  simp only at hres h1 h2 hasi ⊢
  subst hres
  rw [applySnapshot_some_eq, if_neg (by omega), if_neg (by omega), hasi]



theorem snapshot_asw_none (ws : List WorkerState)
    (hwk : (ws.map (fun w => w.definition.key)).Nodup) :
    (applySnapWorkers (ws.map saveWorkerOf) ws).2 = none := by
  rw [asw_err_none_iff]
  intro w hw
  have hkeys : ((ws.map saveWorkerOf).map (fun sw => sw.key)).Nodup := by
    rw [List.map_map]
    exact hwk
  have := lookupLast_self (fun sw => sw.key) (ws.map saveWorkerOf) hkeys
    (saveWorkerOf w) (List.mem_map_of_mem saveWorkerOf hw)
  rw [show (fun (sw : saveWorker) => sw.key) (saveWorkerOf w) = w.definition.key from rfl]
    at this
  rw [this]
  rfl

theorem snapshot_asi_none (g : GameState)
    (hik : (g.industries.map (fun i => i.key)).Nodup)
    (hwk : ∀ ind ∈ g.industries, (ind.workers.map (fun w => w.definition.key)).Nodup) :
    (applySnapIndustries (g.industries.map saveIndustryOf) g.industries).2 = none := by
  rw [asi_err_none_iff]
  intro ind hind
  have hkeys : ((g.industries.map saveIndustryOf).map (fun si => si.key)).Nodup := by
    rw [List.map_map]
    exact hik
  have hl := lookupLast_self (fun si => si.key) (g.industries.map saveIndustryOf) hkeys
    (saveIndustryOf ind) (List.mem_map_of_mem saveIndustryOf hind)
  rw [show (fun (si : saveIndustry) => si.key) (saveIndustryOf ind) = ind.key from rfl] at hl
  refine ⟨saveIndustryOf ind, hl, ?_⟩
  exact snapshot_asw_none ind.workers (hwk ind hind)

/-- **C2 (amended).** For every state whose industry keys are pairwise
distinct and whose worker keys are distinct within each industry,
save-then-load (`applySnapshot` of `snapshot`) succeeds, and afterwards
every owned-count, tier, resource balance, next-fire timestamp and both
mode flags equal their save-time values, every worker is idle with a
cleared cycle-end, and each auto flag equals its save-time value OR-ed with
the auto-threshold condition recomputed on the saved tier (hence unchanged
except that an auto flag can be forced true when the threshold condition
already held at save time). -/
theorem C2_roundtrip (g : GameState) (now : Int)
    (hik : (g.industries.map (fun i => i.key)).Nodup)
    (hwk : ∀ ind ∈ g.industries, (ind.workers.map (fun w => w.definition.key)).Nodup) :
    (applySnapshot (snapshot now g) g).2 = none ∧
    (applySnapshot (snapshot now g) g).1.resources = g.resources ∧
    (applySnapshot (snapshot now g) g).1.production = g.production ∧
    (applySnapshot (snapshot now g) g).1.buyModeMax = g.buyModeMax ∧
    (applySnapshot (snapshot now g) g).1.devMode = g.devMode ∧
    (applySnapshot (snapshot now g) g).1.industries.length = g.industries.length ∧
    ∀ i ind, g.industries.get? i = some ind →
      ∃ ind', (applySnapshot (snapshot now g) g).1.industries.get? i = some ind' ∧
        ind'.key = ind.key ∧ ind'.workers.length = ind.workers.length ∧
        ∀ j w, ind.workers.get? j = some w →
          ∃ w', ind'.workers.get? j = some w' ∧
            w'.definition = w.definition ∧
            w'.owned = w.owned ∧ w'.tier = w.tier ∧
            w'.running = false ∧ w'.endsAt = 0 ∧
            w'.auto = (w.auto ||
              decide (0 < w.definition.autoTier ∧ w.definition.autoTier ≤ w.tier)) := by
  have hasi : (applySnapIndustries (snapshot now g).industries g.industries).2 = none :=
    snapshot_asi_none g hik hwk
  have hbuild := applySnapshot_build (snapshot now g) g g.resources rfl
    (by show (g.industries.map saveIndustryOf).length = _; rw [List.length_map])
    (by show (g.production.map _).length = _; rw [List.length_map])
    hasi
  rw [hbuild]
  refine ⟨rfl, rfl, ?_, rfl, rfl, ?_, ?_⟩
  · show List.zipWith _ g.production ((snapshot now g).production) = g.production
    exact zipWith_self_nextAt g.production
  · show (applySnapIndustries (snapshot now g).industries g.industries).1.length = _
    rw [asi_length]
  · intro i ind hind
    obtain ⟨si, hsi, hgeti⟩ :=
      asi_get?_ok (snapshot now g).industries g.industries hasi i ind hind
    have hkeys : (((snapshot now g).industries).map (fun si => si.key)).Nodup := by
      show ((g.industries.map saveIndustryOf).map (fun si => si.key)).Nodup
      rw [List.map_map]
      exact hik
    have hself := lookupLast_self (fun si => si.key) (snapshot now g).industries hkeys
      (saveIndustryOf ind) (List.mem_map_of_mem saveIndustryOf (List.get?_mem hind))
    rw [show (fun (si : saveIndustry) => si.key) (saveIndustryOf ind) = ind.key from rfl]
      at hself
    rw [hself] at hsi
    cases hsi
    refine ⟨{ ind with workers := (applySnapWorkers (saveIndustryOf ind).workers ind.workers).1 },
      hgeti, rfl, ?_, ?_⟩
    · show (applySnapWorkers _ ind.workers).1.length = _
      rw [asw_length]
    · intro j w hjw
      have hswnone : (applySnapWorkers (saveIndustryOf ind).workers ind.workers).2 = none :=
        snapshot_asw_none ind.workers (hwk ind (List.get?_mem hind))
      obtain ⟨sw, hsw, hgetj⟩ :=
        asw_get?_ok (saveIndustryOf ind).workers ind.workers hswnone j w hjw
      have hwkeys : (((saveIndustryOf ind).workers).map (fun sw => sw.key)).Nodup := by
        show ((ind.workers.map saveWorkerOf).map (fun sw => sw.key)).Nodup
        rw [List.map_map]
        exact hwk ind (List.get?_mem hind)
      have hwself := lookupLast_self (fun sw => sw.key) (saveIndustryOf ind).workers hwkeys
        (saveWorkerOf w) (List.mem_map_of_mem saveWorkerOf (List.get?_mem hjw))
      rw [show (fun (sw : saveWorker) => sw.key) (saveWorkerOf w) = w.definition.key from rfl]
        at hwself
      rw [hwself] at hsw
      cases hsw
      exact ⟨loadWorker w (saveWorkerOf w), hgetj, rfl, rfl, rfl, rfl, rfl, rfl⟩



theorem C2_roundtrip_witness :
    (applySnapshot (snapshot 3 gTwo) gTwo).2 = none ∧
    (applySnapshot (snapshot 3 gTwo) gTwo).1.resources = gTwo.resources ∧
    (applySnapshot (snapshot 3 gTwo) gTwo).1.production = gTwo.production ∧
    (applySnapshot (snapshot 3 gTwo) gTwo).1.buyModeMax = gTwo.buyModeMax ∧
    (applySnapshot (snapshot 3 gTwo) gTwo).1.devMode = gTwo.devMode ∧
    (applySnapshot (snapshot 3 gTwo) gTwo).1.industries.length = gTwo.industries.length ∧
    ∀ i ind, gTwo.industries.get? i = some ind →
      ∃ ind', (applySnapshot (snapshot 3 gTwo) gTwo).1.industries.get? i = some ind' ∧
        ind'.key = ind.key ∧ ind'.workers.length = ind.workers.length ∧
        ∀ j w, ind.workers.get? j = some w →
          ∃ w', ind'.workers.get? j = some w' ∧
            w'.definition = w.definition ∧
            w'.owned = w.owned ∧ w'.tier = w.tier ∧
            w'.running = false ∧ w'.endsAt = 0 ∧
            w'.auto = (w.auto ||
              decide (0 < w.definition.autoTier ∧ w.definition.autoTier ≤ w.tier)) :=
  C2_roundtrip gTwo 3 (by decide) (by decide)

theorem upgrade_auto_mono (g : GameState) (i j iw jw : Nat) (w w' : WorkerState)
    (hw : wAt g iw jw = some w) (hw' : wAt (upgradeWorker i j g).1 iw jw = some w')
    (ha : w.auto = true) : w'.auto = true := by
  cases hind : g.industries.get? i with
  | none =>
    have hid : (upgradeWorker i j g).1 = g := by
      unfold upgradeWorker
      rw [hind]
    rw [hid, hw] at hw'
    cases hw'
    exact ha
  | some ind =>
    cases hjw0 : ind.workers.get? j with
    | none =>
      have hid : (upgradeWorker i j g).1 = g := by
        unfold upgradeWorker
        simp only [hind, hjw0]
      rw [hid, hw] at hw'
      cases hw'
      exact ha
    | some w0 =>
      have hw0at : wAt g i j = some w0 := by
        unfold wAt
        rw [hind]
        simpa using hjw0
      have hauto_goal : ∀ g1 : GameState, g1.industries = g.industries →
          wAt (setWorker g1 i j { w0 with tier := w0.tier + 1, auto := if 0 < w0.definition.autoTier ∧ w0.definition.autoTier ≤ w0.tier + 1 then true else w0.auto }) iw jw = some w' → w'.auto = true := by
        intro g1 hg1 hset
        by_cases hij : iw = i ∧ jw = j
        · obtain ⟨hi, hj⟩ := hij
          subst hi
          subst hj
          have hg1at : wAt g1 iw jw = some w0 := by
            unfold wAt
            rw [hg1]
            unfold wAt at hw0at
            exact hw0at
          rw [wAt_setWorker_self g1 iw jw w0 _ hg1at] at hset
          cases hset
          have hww0 : w = w0 := by
            rw [hw0at] at hw
            exact (Option.some.inj hw).symm
          show (if 0 < w0.definition.autoTier ∧ w0.definition.autoTier ≤ w0.tier + 1 then true else w0.auto) = true
          by_cases hc : 0 < w0.definition.autoTier ∧ w0.definition.autoTier ≤ w0.tier + 1
          · rw [if_pos hc]
          · rw [if_neg hc, ← hww0]
            exact ha
        · have hne : iw ≠ i ∨ jw ≠ j := not_and_or.mp hij
          rw [wAt_setWorker_ne g1 i j _ iw jw hne] at hset
          have : wAt g1 iw jw = wAt g iw jw := by
            unfold wAt
            rw [hg1]
          rw [this, hw] at hset
          cases hset
          exact ha
      by_cases hdev : g.devMode = true
      · rw [upgradeWorker_dev g i j ind w0 hind hjw0 hdev] at hw'
        exact hauto_goal g rfl hw'
      · have hdev' : g.devMode = false := by
          cases hd : g.devMode
          · rfl
          · exact absurd hd hdev
        cases hca : canAfford (scaledCost w0.definition.cost w0.definition.upgradeMult w0.tier) g.resources with
        | false =>
          rw [upgradeWorker_fail g i j ind w0 hind hjw0 hdev' hca] at hw'
          simp only at hw'
          rw [hw] at hw'
          cases hw'
          exact ha
        | true =>
          rw [upgradeWorker_ok g i j ind w0 hind hjw0 hdev' hca] at hw'
          exact hauto_goal _ rfl hw'

theorem applySnapshot_ok_worker (snap : saveGame) (g : GameState)
    (hok : (applySnapshot snap g).2 = none)
    (i : Nat) (ind : IndustryState) (j : Nat) (w : WorkerState)
    (hind : g.industries.get? i = some ind) (hjw : ind.workers.get? j = some w) :
    ∃ si sw, lookupLast (fun s => s.key) snap.industries ind.key = some si ∧
      lookupLast (fun sw => sw.key) si.workers w.definition.key = some sw ∧
      wAt (applySnapshot snap g).1 i j = some (loadWorker w sw) := by
  obtain ⟨sInds, sRes, sProd, sBm, sDv, sSa, sSv⟩ := snap
  cases sRes with
  | none => exact Option.noConfusion hok
  | some sres =>
    rw [applySnapshot_some_eq] at hok ⊢
    by_cases h1 : sInds.length ≠ g.industries.length
    · rw [if_pos h1] at hok
      exact Option.noConfusion hok
    · rw [if_neg h1] at hok ⊢
      by_cases h2 : sProd.length ≠ g.production.length
      · rw [if_pos h2] at hok
        exact Option.noConfusion hok
      · rw [if_neg h2] at hok ⊢
        cases hasi : (applySnapIndustries sInds g.industries).2 with
        | some msg =>
          rw [hasi] at hok
          exact Option.noConfusion hok
        | none =>
          obtain ⟨si, hsi, hgeti⟩ := asi_get?_ok sInds g.industries hasi i ind hind
          have hswnone : (applySnapWorkers si.workers ind.workers).2 = none := by
            obtain ⟨si', hsi', hok'⟩ :=
              (asi_err_none_iff sInds g.industries).mp hasi ind (List.get?_mem hind)
            rw [hsi] at hsi'
            cases hsi'
            exact hok'
          obtain ⟨sw, hsw, hgetj⟩ := asw_get?_ok si.workers ind.workers hswnone j w hjw
          refine ⟨si, sw, hsi, hsw, ?_⟩
          unfold wAt
          show ((applySnapIndustries sInds g.industries).1.get? i).bind _ = _
          rw [hgeti]
          simpa using hgetj



/-- **C5.** Once a worker's auto flag is on, no `UpgradeWorker` call (on any
worker, successful or not) ever turns it off again; and a successful load
recomputes every worker's flag as the saved flag OR-ed with the auto-tier
threshold evaluated at the saved tier, so the live latch itself is **not**
preserved across a load of an older snapshot (see the counterexample): the
latch is monotone only within a session, restored on load from the saved
data alone. -/
theorem C5_auto_latch :
    (∀ g i j iw jw (w w' : WorkerState), wAt g iw jw = some w →
        wAt (upgradeWorker i j g).1 iw jw = some w' →
        w.auto = true → w'.auto = true) ∧
    (∀ (snap : saveGame) (g : GameState) i ind j w,
        (applySnapshot snap g).2 = none →
        g.industries.get? i = some ind → ind.workers.get? j = some w →
        ∃ si sw, lookupLast (fun s => s.key) snap.industries ind.key = some si ∧
          lookupLast (fun sw => sw.key) si.workers w.definition.key = some sw ∧
          (wAt (applySnapshot snap g).1 i j).map (fun w2 => w2.auto) =
            some (sw.auto ||
              decide (0 < w.definition.autoTier ∧ w.definition.autoTier ≤ sw.tier))) := by
  constructor
  · intro g i j iw jw w w2 hw hw2 ha
    exact upgrade_auto_mono g i j iw jw w w2 hw hw2 ha
  · intro snap g i ind j w hok hind hjw
    obtain ⟨si, sw, hsi, hsw, hat⟩ := applySnapshot_ok_worker snap g hok i ind j w hind hjw
    exact ⟨si, sw, hsi, hsw, by rw [hat]; rfl⟩

theorem C5_auto_latch_witness :
    ({ definition := wThresh3, owned := 2, tier := 4, running := false, endsAt := 0,
       auto := true } : WorkerState).auto = true ∧
    (∃ si sw, lookupLast (fun s => s.key) snapOld.industries "mine" = some si ∧
      lookupLast (fun sw => sw.key) si.workers "a" = some sw ∧
      (wAt (applySnapshot snapOld gLatched).1 0 0).map (fun w2 => w2.auto) =
        some (sw.auto ||
          decide (0 < wThresh3.autoTier ∧ wThresh3.autoTier ≤ sw.tier))) :=
  ⟨C5_auto_latch.1 gLatchedDev 0 0 0 0
      { definition := wThresh3, owned := 2, tier := 3, running := false, endsAt := 0,
        auto := true }
      { definition := wThresh3, owned := 2, tier := 4, running := false, endsAt := 0,
        auto := true }
      (by decide) (by decide) rfl,
   C5_auto_latch.2 snapOld gLatched 0
      { key := "mine", name := "Mine", resource := "coal",
        workers := [{ definition := wThresh3, owned := 2, tier := 3, running := false,
                      endsAt := 0, auto := true }] }
      0
      { definition := wThresh3, owned := 2, tier := 3, running := false, endsAt := 0,
        auto := true }
      (by decide) rfl rfl⟩




theorem runPassive_append (l1 l2 : List Int) :
    ∀ (p : PassiveProductionState) (res : Rmap),
      runPassive (l1 ++ l2) p res
        = runPassive l2 (runPassive l1 p res).1 (runPassive l1 p res).2 := by
  induction l1 with
  | nil => intro p res; rfl
  | cons t ts ih =>
    intro p res
    rw [List.cons_append]
    show runPassive (ts ++ l2) (papply t p res).1 (papply t p res).2 = _
    rw [ih]
    rfl

theorem ploop_closed (resource : String) (rate quant now : Int) (h : 0 < rate) :
    ∀ (nextAt : Int) (res : Rmap), nextAt ≤ now →
      (ploop resource rate quant now h nextAt res).1
        = nextAt + rate * ((now - nextAt) / rate + 1) ∧
      ∀ k, getD (ploop resource rate quant now h nextAt res).2 k
        = getD res k + (if k = resource then quant * ((now - nextAt) / rate + 1) else 0) := by
  intro nextAt res
  induction nextAt, res using ploop.induct resource rate quant now h with
  | case1 nextAt res hlt =>
    intro hle
    omega
  | case2 nextAt res hlt ih =>
    intro _
    rw [ploop, if_neg hlt]
    by_cases hnr : nextAt + rate ≤ now
    · obtain ⟨ih1, ih2⟩ := ih hnr
      have hnorm : now - (nextAt + rate) = now - nextAt - rate := by ring
      rw [hnorm] at ih1 ih2
      have hdiv : (now - nextAt) / rate = (now - nextAt - rate) / rate + 1 := by
        have := Int.add_mul_ediv_right (now - nextAt - rate) 1 (by omega : rate ≠ 0)
        have harg : now - nextAt - rate + 1 * rate = now - nextAt := by ring
        rw [harg] at this
        omega
      constructor
      · rw [ih1, hdiv]
        ring
      · intro k
        rw [ih2 k, getD_addK, hdiv]
        by_cases hk : k = resource
        · rw [if_pos hk, if_pos hk, if_pos hk, hk]
          ring
        · rw [if_neg hk, if_neg hk, if_neg hk]
    · rw [ploop, if_pos (by omega : now < nextAt + rate)]
      have hz : (now - nextAt) / rate = 0 :=
        Int.ediv_eq_zero_of_lt (by omega) (by omega)
      constructor
      · rw [hz]
        ring
      · intro k
        rw [getD_addK, hz]
        by_cases hk : k = resource
        · rw [if_pos hk, if_pos hk, hk]
          ring
        · rw [if_neg hk, if_neg hk]
          omega

theorem papply_step (d : PassiveProductionSpec) (hr : 0 < d.prodRate)
    (hq : 0 < d.prodQuant) (t s m : Int) (res : Rmap) :
    ∃ m1 : Int, m ≤ m1 ∧
      (papply t { definition := d, nextAt := s + d.prodRate * m } res).1
        = { definition := d, nextAt := s + d.prodRate * m1 } ∧
      t < s + d.prodRate * m1 ∧
      (s + d.prodRate * m1 ≤ s + d.prodRate * m ∨ s + d.prodRate * m1 ≤ t + d.prodRate) ∧
      ∀ k, getD (papply t { definition := d, nextAt := s + d.prodRate * m } res).2 k
        = getD res k + (if k = d.resource then d.prodQuant * (m1 - m) else 0) := by
  by_cases hskip : t < s + d.prodRate * m
  · refine ⟨m, le_refl m, ?_⟩
    have hpap : papply t { definition := d, nextAt := s + d.prodRate * m } res
        = ({ definition := d, nextAt := s + d.prodRate * m }, res) := by
      unfold papply
      rw [if_pos hskip]
    rw [hpap]
    refine ⟨rfl, hskip, Or.inl (le_refl _), ?_⟩
    intro k
    show getD res k = getD res k + (if k = d.resource then d.prodQuant * (m - m) else 0)
    by_cases hk : k = d.resource
    · rw [if_pos hk]
      ring
    · rw [if_neg hk]
      omega
  · have hle : s + d.prodRate * m ≤ t := by omega
    obtain ⟨hc1, hc2⟩ := ploop_closed d.resource d.prodRate d.prodQuant t hr
      (s + d.prodRate * m) res hle
    have hpap : papply t { definition := d, nextAt := s + d.prodRate * m } res
        = ({ definition := d,
             nextAt := (ploop d.resource d.prodRate d.prodQuant t hr
               (s + d.prodRate * m) res).1 },
           (ploop d.resource d.prodRate d.prodQuant t hr (s + d.prodRate * m) res).2) := by
      unfold papply
      rw [if_neg hskip, dif_neg (by omega : ¬(d.prodRate ≤ 0 ∨ d.prodQuant ≤ 0))]
    set D : Int := t - (s + d.prodRate * m) with hD
    have hD0 : 0 ≤ D := by omega
    have hdnn : 0 ≤ D / d.prodRate := Int.ediv_nonneg hD0 (le_of_lt hr)
    have hlow : (D / d.prodRate) * d.prodRate ≤ D :=
      (Int.le_ediv_iff_mul_le hr).mp (le_refl _)
    have hhigh : D < (D / d.prodRate + 1) * d.prodRate :=
      (Int.ediv_lt_iff_lt_mul hr).mp (by omega)
    refine ⟨m + (D / d.prodRate + 1), by omega, ?_, ?_, ?_, ?_⟩
    · rw [hpap]
      have : (ploop d.resource d.prodRate d.prodQuant t hr (s + d.prodRate * m) res).1
          = s + d.prodRate * (m + (D / d.prodRate + 1)) := by
        rw [hc1]
        ring
      rw [this]
    · have : s + d.prodRate * (m + (D / d.prodRate + 1))
          = s + d.prodRate * m + (D / d.prodRate) * d.prodRate + d.prodRate := by ring
      rw [this]
      have h2 : t = s + d.prodRate * m + D := by omega
      have h3 : D < (D / d.prodRate) * d.prodRate + d.prodRate := by
        have : (D / d.prodRate + 1) * d.prodRate
            = (D / d.prodRate) * d.prodRate + d.prodRate := by ring
        omega
      omega
    · right
      have : s + d.prodRate * (m + (D / d.prodRate + 1))
          = s + d.prodRate * m + (D / d.prodRate) * d.prodRate + d.prodRate := by ring
      omega
    · intro k
      rw [hpap]
      show getD (ploop d.resource d.prodRate d.prodQuant t hr (s + d.prodRate * m) res).2 k = _
      rw [hc2 k]
      by_cases hk : k = d.resource
      · rw [if_pos hk, if_pos hk]
        ring
      · rw [if_neg hk, if_neg hk]

theorem runPassive_inv (d : PassiveProductionSpec) (hr : 0 < d.prodRate)
    (hq : 0 < d.prodQuant) (b s : Int) :
    ∀ (ts : List Int), (∀ t ∈ ts, t ≤ b) →
    ∀ (m : Int) (res : Rmap), 1 ≤ m → s + d.prodRate * m ≤ b + d.prodRate →
      ∃ m' : Int, m ≤ m' ∧ 1 ≤ m' ∧
        (runPassive ts { definition := d, nextAt := s + d.prodRate * m } res).1
          = { definition := d, nextAt := s + d.prodRate * m' } ∧
        s + d.prodRate * m' ≤ b + d.prodRate ∧
        ∀ k, getD (runPassive ts { definition := d, nextAt := s + d.prodRate * m } res).2 k
          = getD res k + (if k = d.resource then d.prodQuant * (m' - m) else 0) := by
  intro ts
  induction ts with
  | nil =>
    intro _ m res hm hub
    refine ⟨m, le_refl m, hm, rfl, hub, ?_⟩
    intro k
    show getD res k = getD res k + (if k = d.resource then d.prodQuant * (m - m) else 0)
    by_cases hk : k = d.resource
    · rw [if_pos hk]
      ring
    · rw [if_neg hk]
      omega
  | cons t ts ih =>
    intro hall m res hm hub
    obtain ⟨m1, hm1, heq1, hlt1, hbd1, hgd1⟩ := papply_step d hr hq t s m res
    have ht : t ≤ b := hall t (List.mem_cons_self t ts)
    have hub1 : s + d.prodRate * m1 ≤ b + d.prodRate := by
      cases hbd1 with
      | inl h => omega
      | inr h => omega
    have hall' : ∀ u ∈ ts, u ≤ b := fun u hu => hall u (List.mem_cons_of_mem t hu)
    obtain ⟨m', hm', hm'1, heq', hub', hgd'⟩ :=
      ih hall' m1 (papply t { definition := d, nextAt := s + d.prodRate * m } res).2
        (by omega) hub1
    refine ⟨m', by omega, hm'1, ?_, hub', ?_⟩
    · show (runPassive ts (papply t { definition := d, nextAt := s + d.prodRate * m } res).1
        (papply t { definition := d, nextAt := s + d.prodRate * m } res).2).1 = _
      rw [heq1]
      exact heq'
    · intro k
      show getD (runPassive ts
        (papply t { definition := d, nextAt := s + d.prodRate * m } res).1
        (papply t { definition := d, nextAt := s + d.prodRate * m } res).2).2 k = _
      rw [heq1]
      rw [hgd' k, hgd1 k]
      by_cases hk : k = d.resource
      · rw [if_pos hk, if_pos hk, if_pos hk]
        ring
      · rw [if_neg hk, if_neg hk, if_neg hk]
        omega

theorem papply_defensive (now : Int) (p : PassiveProductionState) (res : Rmap)
    (h : p.definition.prodRate ≤ 0 ∨ p.definition.prodQuant ≤ 0) :
    papply now p res = (p, res) := by
  unfold papply
  by_cases hsk : now < p.nextAt
  · rw [if_pos hsk]
  · rw [if_neg hsk, dif_pos h]



/-- **C8.** For a passive producer with interval `i > 0` and quantity `q > 0`,
armed by `buildPassiveProduction` at instant `s`, the total credited to its
resource over any schedule of `Update` instants that all lie within the
elapsed window `[s, s+T]` and whose last instant is `s + T` equals
`⌊T / i⌋ * q`, independent of the number and spacing of the instants; and
with a non-positive interval or quantity `apply` credits nothing and leaves
the producer untouched (defensive no-op). -/
theorem C8_passive_yield :
    (∀ (d : PassiveProductionSpec) (s T : Int) (ts : List Int) (res : Rmap)
        (p0 : PassiveProductionState),
        buildPassiveProduction s [d] = [p0] →
        0 < d.prodRate → 0 < d.prodQuant → 0 ≤ T →
        (∀ t ∈ ts, t ≤ s + T) →
        getD (runPassive (ts ++ [s + T]) p0 res).2 d.resource
          = getD res d.resource + d.prodQuant * (T / d.prodRate)) ∧
    (∀ (now : Int) (p : PassiveProductionState) (res : Rmap),
        p.definition.prodRate ≤ 0 ∨ p.definition.prodQuant ≤ 0 →
        papply now p res = (p, res)) := by
  constructor
  · intro d s T ts res p0 hp0 hr hq hT hall
    have hp : p0 = { definition := d, nextAt := s + d.prodRate } := by
      have h := hp0
      simp only [buildPassiveProduction, List.map_cons, List.map_nil,
        List.cons.injEq, and_true] at h
      exact h.symm
    subst hp
    have h1 : s + d.prodRate = s + d.prodRate * 1 := by ring
    rw [h1, runPassive_append]
    obtain ⟨m', h1m, hm'1, heq, hub, hgd⟩ :=
      runPassive_inv d hr hq (s + T) s ts hall 1 res (le_refl 1) (by omega)
    show getD (papply (s + T)
      (runPassive ts { definition := d, nextAt := s + d.prodRate * 1 } res).1
      (runPassive ts { definition := d, nextAt := s + d.prodRate * 1 } res).2).2
      d.resource = _
    rw [heq]
    obtain ⟨mf, hmf, heqf, hltf, hbdf, hgdf⟩ :=
      papply_step d hr hq (s + T) s m'
        (runPassive ts { definition := d, nextAt := s + d.prodRate * 1 } res).2
    rw [hgdf d.resource, hgd d.resource, if_pos rfl, if_pos rfl]
    have hup : d.prodRate * mf ≤ T + d.prodRate := by
      cases hbdf with
      | inl h => omega
      | inr h => omega
    have hdiv : T / d.prodRate = mf - 1 := by
      have l1 : mf - 1 ≤ T / d.prodRate :=
        (Int.le_ediv_iff_mul_le hr).mpr (by nlinarith)
      have l2 : T / d.prodRate < mf :=
        (Int.ediv_lt_iff_lt_mul hr).mpr (by nlinarith)
      omega
    rw [hdiv]
    ring
  · intro now p res h
    exact papply_defensive now p res h

theorem C8_passive_yield_witness :
    getD (runPassive ([4, 2] ++ [(0 : Int) + 7])
        { definition := { resource := "gold", prodRate := 3, prodQuant := 5 }, nextAt := 3 }
        []).2 "gold"
      = getD ([] : Rmap) "gold" + 5 * ((7 : Int) / 3) ∧
    papply 9 { definition := { resource := "gold", prodRate := 0, prodQuant := 5 }, nextAt := 2 }
        []
      = ({ definition := { resource := "gold", prodRate := 0, prodQuant := 5 }, nextAt := 2 },
         []) :=
  ⟨C8_passive_yield.1 { resource := "gold", prodRate := 3, prodQuant := 5 } 0 7 [4, 2] []
      { definition := { resource := "gold", prodRate := 3, prodQuant := 5 }, nextAt := 3 }
      (by decide) (by decide) (by decide) (by decide) (by decide),
   C8_passive_yield.2 9
      { definition := { resource := "gold", prodRate := 0, prodQuant := 5 }, nextAt := 2 } []
      (Or.inl (by decide))⟩



theorem findIdx_aux {α β : Type} (f : α → Bool) (g : β → Bool) :
    ∀ (l1 : List α) (l2 : List β) (i : Nat),
      l1.map f = l2.map g → List.findIdx? f l1 i = List.findIdx? g l2 i := by
  intro l1
  induction l1 with
  | nil =>
    intro l2 i h
    cases l2 with
    | nil => rfl
    | cons b l2' => exact absurd h (by simp)
  | cons a l1' ih =>
    intro l2 i h
    cases l2 with
    | nil => exact absurd h (by simp)
    | cons b l2' =>
      simp only [List.map_cons, List.cons.injEq] at h
      show (if f a then some i else List.findIdx? f l1' (i + 1))
        = (if g b then some i else List.findIdx? g l2' (i + 1))
      rw [h.1, ih l2' (i + 1) h.2]

theorem findWorkerIndex_congr (ws ws' : List WorkerState)
    (h : defsOf ws = defsOf ws') (key : String) :
    findWorkerIndex ws key = findWorkerIndex ws' key := by
  unfold findWorkerIndex
  apply findIdx_aux
  have hmap : ∀ u : List WorkerState,
      u.map (fun w => w.definition.key == key)
        = (defsOf u).map (fun d0 => d0.key == key) := by
    intro u
    unfold defsOf
    rw [List.map_map]
    rfl
  rw [hmap ws, hmap ws', h]

theorem applyProduction_nochain (r : String) (ws : List WorkerState) (k : Nat)
    (res : Rmap) (w : WorkerState) (hk : ws.get? k = some w)
    (hnc : findWorkerIndex ws w.definition.produces = none) :
    (applyProduction r ws k res).1 = ws := by
  unfold applyProduction
  rw [hk]
  by_cases h0 : w.owned == 0
  · simp [h0]
  · simp only [h0, Bool.false_eq_true, if_false]
    rw [hnc]
    by_cases hp : w.definition.produces == r <;> simp [hp]

theorem stepWorker_stab (now : Int) (r : String) (ws : List WorkerState) (res : Rmap)
    (k : Nat) (w : WorkerState) (hk : ws.get? k = some w)
    (hnc : findWorkerIndex ws w.definition.produces = none)
    (hrate : 0 < w.definition.prodRate) :
    (∀ j, j ≠ k → (stepWorker now r (ws, res) k).1.get? j = ws.get? j) ∧
    ∃ w', (stepWorker now r (ws, res) k).1.get? k = some w' ∧
      w'.definition = w.definition ∧ stableW now w' := by
  have hklen : k < ws.length := (List.get?_eq_some.mp hk).1
  simp only [stepWorker, hk]
  by_cases hg : w.auto = true ∧ w.running = false ∧ 0 < w.owned
  · simp only [if_pos hg]
    set wst : WorkerState :=
      { w with running := true, endsAt := now + w.definition.prodRate } with hws
    rw [if_neg (by rw [hws]; simp : ¬(wst.running = false))]
    rw [if_pos (by rw [hws]; show now < now + w.definition.prodRate; omega : now < wst.endsAt)]
    constructor
    · intro j hj
      exact List.get?_set_ne wst ws (Ne.symm hj)
    · refine ⟨wst, List.get?_set_eq_of_lt wst hklen, rfl, ?_, ?_⟩
      · rintro ⟨-, hrun, -⟩
        rw [hws] at hrun
        exact absurd hrun (by simp)
      · right
        rw [hws]
        show now < now + w.definition.prodRate
        omega
  · simp only [if_neg hg]
    by_cases hrun : w.running = false
    · simp only [if_pos hrun]
      exact ⟨fun j _ => trivial, w, hk, rfl, hg, Or.inl hrun⟩
    · simp only [if_neg hrun]
      by_cases hend : now < w.endsAt
      · simp only [if_pos hend]
        exact ⟨fun j _ => trivial, w, hk, rfl, hg, Or.inr hend⟩
      · simp only [if_neg hend]
        have hfst : (applyProduction r ws k res).1 = ws :=
          applyProduction_nochain r ws k res w hk hnc
        have hw2 : (applyProduction r ws k res).1.get? k = some w := by
          rw [hfst]
          exact hk
        simp only [hw2]
        by_cases ha : w.auto = true
        · rw [if_pos ha]
          constructor
          · intro j hj
            show ((applyProduction r ws k res).1.set k
              { w with running := true, endsAt := now + w.definition.prodRate }).get? j = _
            rw [hfst]
            exact List.get?_set_ne _ ws (Ne.symm hj)
          · refine ⟨{ w with running := true, endsAt := now + w.definition.prodRate }, ?_, rfl,
              ?_, ?_⟩
            · show ((applyProduction r ws k res).1.set k
                { w with running := true, endsAt := now + w.definition.prodRate }).get? k = _
              rw [hfst]
              exact List.get?_set_eq_of_lt _ hklen
            · rintro ⟨-, hr2, -⟩
              exact absurd hr2 (by simp)
            · right
              show now < now + w.definition.prodRate
              omega
        · rw [if_neg ha]
          constructor
          · intro j hj
            show ((applyProduction r ws k res).1.set k { w with running := false }).get? j = _
            rw [hfst]
            exact List.get?_set_ne _ ws (Ne.symm hj)
          · refine ⟨{ w with running := false }, ?_, rfl, ?_, Or.inl rfl⟩
            · show ((applyProduction r ws k res).1.set k { w with running := false }).get? k = _
              rw [hfst]
              exact List.get?_set_eq_of_lt _ hklen
            · rintro ⟨ha2, -, -⟩
              exact ha ha2



theorem foldl_stepWorker_stab (now : Int) (r : String) (ws0 : List WorkerState)
    (res0 : Rmap)
    (hnc : ∀ w ∈ ws0, findWorkerIndex ws0 w.definition.produces = none)
    (hrate : ∀ w ∈ ws0, 0 < w.definition.prodRate) :
    ∀ k : Nat, ∃ ws1 res1,
      (List.range k).foldl (stepWorker now r) (ws0, res0) = (ws1, res1) ∧
      defsOf ws1 = defsOf ws0 ∧
      (∀ j w', j < k → ws1.get? j = some w' → stableW now w') ∧
      (∀ j, k ≤ j → ws1.get? j = ws0.get? j) := by
  intro k
  induction k with
  | zero =>
    exact ⟨ws0, res0, rfl, rfl, fun j w' hj _ => absurd hj (Nat.not_lt_zero j),
      fun j _ => rfl⟩
  | succ k ih =>
    obtain ⟨ws1, res1, heq, hd, hs, hu⟩ := ih
    have hfold : (List.range (k + 1)).foldl (stepWorker now r) (ws0, res0)
        = stepWorker now r (ws1, res1) k := by
      rw [List.range_succ, List.foldl_append, heq]
      rfl
    cases hk0 : ws0.get? k with
    | none =>
      have hwk : ws1.get? k = none := by
        rw [hu k (le_refl k), hk0]
      have hstep : stepWorker now r (ws1, res1) k = (ws1, res1) := by
        simp only [stepWorker, hwk]
      refine ⟨ws1, res1, by rw [hfold, hstep], hd, ?_, ?_⟩
      · intro j w' hj hw'
        by_cases hjk : j < k
        · exact hs j w' hjk hw'
        · have hj' : j = k := by omega
          rw [hj', hwk] at hw'
          exact Option.noConfusion hw'
      · intro j hj
        exact hu j (by omega)
    | some w =>
      have hwk : ws1.get? k = some w := by
        rw [hu k (le_refl k)]
        exact hk0
      have hwmem : w ∈ ws0 := List.get?_mem hk0
      have hnck : findWorkerIndex ws1 w.definition.produces = none := by
        rw [findWorkerIndex_congr ws1 ws0 hd]
        exact hnc w hwmem
      obtain ⟨hunch, w', hw', hdef', hstab'⟩ :=
        stepWorker_stab now r ws1 res1 k w hwk hnck (hrate w hwmem)
      refine ⟨(stepWorker now r (ws1, res1) k).1, (stepWorker now r (ws1, res1) k).2,
        by rw [hfold], ?_, ?_, ?_⟩
      · calc defsOf (stepWorker now r (ws1, res1) k).1 = defsOf ws1 :=
              stepWorker_defsOf now r (ws1, res1) k
          _ = defsOf ws0 := hd
      · intro j wj hj hwj
        by_cases hjk : j = k
        · rw [hjk, hw'] at hwj
          cases hwj
          exact hstab'
        · rw [hunch j hjk] at hwj
          exact hs j wj (by omega) hwj
      · intro j hj
        rw [hunch j (by omega)]
        exact hu j (by omega)

theorem updateIndustry_stab (now : Int) (ind : IndustryState) (res : Rmap)
    (hnc : noChain ind) (hrate : ∀ w ∈ ind.workers, 0 < w.definition.prodRate) :
    ∀ w' ∈ (updateIndustry now ind res).1.workers, stableW now w' := by
  obtain ⟨ws1, res1, heq, hd, hs, hu⟩ :=
    foldl_stepWorker_stab now ind.resource ind.workers res hnc hrate ind.workers.length
  have hw : (updateIndustry now ind res).1.workers = ws1 := by
    unfold updateIndustry
    rw [heq]
  rw [hw]
  intro w' hw'
  obtain ⟨j, hj⟩ := List.mem_iff_get?.mp hw'
  have hlen : ws1.length = ind.workers.length := by
    have := congrArg List.length hd
    simpa [defsOf] using this
  have hjlt : j < ind.workers.length := by
    have := (List.get?_eq_some.mp hj).1
    omega
  exact hs j w' hjlt hj

theorem stepWorker_id (now now' : Int) (r : String) (ws : List WorkerState) (res : Rmap)
    (k : Nat) (h : ∀ w, ws.get? k = some w → stableW now w) (hle : now' ≤ now) :
    stepWorker now' r (ws, res) k = (ws, res) := by
  cases hk : ws.get? k with
  | none => simp only [stepWorker, hk]
  | some w =>
    obtain ⟨hng, hor⟩ := h w hk
    simp only [stepWorker, hk, if_neg hng]
    cases hor with
    | inl hrun => rw [if_pos hrun]
    | inr hend =>
      by_cases hrun : w.running = false
      · rw [if_pos hrun]
      · rw [if_neg hrun, if_pos (by omega : now' < w.endsAt)]

theorem foldl_stepWorker_id (now now' : Int) (r : String) (ws : List WorkerState)
    (res : Rmap) (h : ∀ k w, ws.get? k = some w → stableW now w) (hle : now' ≤ now)
    (js : List Nat) : js.foldl (stepWorker now' r) (ws, res) = (ws, res) := by
  induction js with
  | nil => rfl
  | cons j rest ih =>
    rw [List.foldl_cons, stepWorker_id now now' r ws res j (fun w hw => h j w hw) hle]
    exact ih

theorem updateIndustry_id (now now' : Int) (ind : IndustryState) (res : Rmap)
    (h : ∀ w ∈ ind.workers, stableW now w) (hle : now' ≤ now) :
    updateIndustry now' ind res = (ind, res) := by
  unfold updateIndustry
  rw [foldl_stepWorker_id now now' ind.resource ind.workers res
    (fun k w hw => h w (List.get?_mem hw)) hle]

theorem ploop_fst_gt (resource : String) (rate quant now : Int) (h : 0 < rate) (nextAt : Int)
    (res : Rmap) : now < (ploop resource rate quant now h nextAt res).1 := by
  induction nextAt, res using ploop.induct resource rate quant now h with
  | case1 nextAt res hlt =>
    rw [ploop, if_pos hlt]
    exact hlt
  | case2 nextAt res hlt ih =>
    rw [ploop, if_neg hlt]
    exact ih

theorem papply_post (now : Int) (p : PassiveProductionState) (res : Rmap) :
    now < (papply now p res).1.nextAt ∨
    (papply now p res).1.definition.prodRate ≤ 0 ∨
    (papply now p res).1.definition.prodQuant ≤ 0 := by
  unfold papply
  by_cases h1 : now < p.nextAt
  · rw [if_pos h1]
    exact Or.inl h1
  · rw [if_neg h1]
    by_cases h2 : p.definition.prodRate ≤ 0 ∨ p.definition.prodQuant ≤ 0
    · rw [dif_pos h2]
      exact Or.inr h2
    · rw [dif_neg h2]
      left
      show now < (ploop p.definition.resource p.definition.prodRate p.definition.prodQuant
        now _ p.nextAt res).1
      exact ploop_fst_gt _ _ _ now _ p.nextAt res

theorem papply_id (now' : Int) (p : PassiveProductionState) (res : Rmap)
    (h : now' < p.nextAt ∨ p.definition.prodRate ≤ 0 ∨ p.definition.prodQuant ≤ 0) :
    papply now' p res = (p, res) := by
  unfold papply
  by_cases h1 : now' < p.nextAt
  · rw [if_pos h1]
  · rw [if_neg h1, dif_pos (h.resolve_left h1)]

theorem mapRes_id {α : Type} (f : α → Rmap → α × Rmap) :
    ∀ (l : List α) (r : Rmap), (∀ x ∈ l, ∀ r', f x r' = (x, r')) → mapRes f l r = (l, r) := by
  intro l
  induction l with
  | nil => intro r _; rfl
  | cons x xs ih =>
    intro r h
    show (let p := f x r; let q := mapRes f xs p.2; (p.1 :: q.1, q.2)) = (x :: xs, r)
    rw [h x (List.mem_cons_self x xs)]
    show (let q := mapRes f xs r; (x :: q.1, q.2)) = (x :: xs, r)
    rw [ih r (fun y hy r' => h y (List.mem_cons_of_mem x hy) r')]

theorem mapRes_mem_fst {α : Type} (f : α → Rmap → α × Rmap) :
    ∀ (l : List α) (r : Rmap) (y : α), y ∈ (mapRes f l r).1 →
      ∃ x ∈ l, ∃ r', y = (f x r').1 := by
  intro l
  induction l with
  | nil =>
    intro r y hy
    exact absurd hy (by simp [mapRes])
  | cons x xs ih =>
    intro r y hy
    have : (mapRes f (x :: xs) r).1 = (f x r).1 :: (mapRes f xs (f x r).2).1 := rfl
    rw [this] at hy
    cases List.mem_cons.mp hy with
    | inl he => exact ⟨x, List.mem_cons_self x xs, r, he⟩
    | inr hm =>
      obtain ⟨x', hx', r', he⟩ := ih (f x r).2 y hm
      exact ⟨x', List.mem_cons_of_mem x hx', r', he⟩



/-- **C9 (amended).** For states whose industries have no intra-industry
production chain (no worker produces another worker of its own industry)
and all of whose workers have a positive cycle length, `Update` is
stabilising: after `Update now`, a further `Update now'` at any instant
`now' ≤ now` (in particular a repeat of the same instant) is the identity -
no production credited, no ownership change, no running/idle transition, no
next-fire change. Chains break this (see the counterexample): a completed
cycle can hand units to an idle auto worker which only the *next* call
starts. -/
theorem C9_update_stable (g : GameState) (now now' : Int) (hle : now' ≤ now)
    (hnc : ∀ ind ∈ g.industries, noChain ind)
    (hrate : ∀ ind ∈ g.industries, ∀ w ∈ ind.workers, 0 < w.definition.prodRate) :
    update now' (update now g) = update now g := by
  have hprod : ∀ p ∈ (update now g).production,
      now < p.nextAt ∨ p.definition.prodRate ≤ 0 ∨ p.definition.prodQuant ≤ 0 := by
    intro p hp
    have hpr : (update now g).production = (mapRes (papply now) g.production g.resources).1 :=
      rfl
    rw [hpr] at hp
    obtain ⟨p0, hp0, r', hpe⟩ := mapRes_mem_fst (papply now) g.production g.resources p hp
    rw [hpe]
    exact papply_post now p0 r'
  have hindstab : ∀ ind1 ∈ (update now g).industries, ∀ w ∈ ind1.workers, stableW now w := by
    intro ind1 hind1
    have hin : (update now g).industries
        = (mapRes (fun ind r => updateIndustry now ind r) g.industries
            (mapRes (papply now) g.production g.resources).2).1 := rfl
    rw [hin] at hind1
    obtain ⟨ind0, hind0, r', hie⟩ := mapRes_mem_fst (fun ind r => updateIndustry now ind r)
      g.industries (mapRes (papply now) g.production g.resources).2 ind1 hind1
    rw [hie]
    exact updateIndustry_stab now ind0 r' (hnc ind0 hind0) (hrate ind0 hind0)
  have h1 : mapRes (papply now') (update now g).production (update now g).resources
      = ((update now g).production, (update now g).resources) :=
    mapRes_id (papply now') (update now g).production (update now g).resources
      (fun p hp r' => papply_id now' p r' (by
        cases hprod p hp with
        | inl h => exact Or.inl (by omega)
        | inr h => exact Or.inr h))
  have h2 : mapRes (fun ind r => updateIndustry now' ind r) (update now g).industries
      (update now g).resources = ((update now g).industries, (update now g).resources) :=
    mapRes_id (fun ind r => updateIndustry now' ind r) (update now g).industries
      (update now g).resources
      (fun ind hind r' => updateIndustry_id now now' ind r' (hindstab ind hind) hle)
  show update now' (update now g) = update now g
  have hshow : update now' (update now g)
      = { update now g with
          production := (mapRes (papply now') (update now g).production
            (update now g).resources).1,
          industries := (mapRes (fun ind r => updateIndustry now' ind r)
            (update now g).industries
            (mapRes (papply now') (update now g).production (update now g).resources).2).1,
          resources := (mapRes (fun ind r => updateIndustry now' ind r)
            (update now g).industries
            (mapRes (papply now') (update now g).production (update now g).resources).2).2 } :=
    rfl
  rw [hshow, h1]
  show ({ update now g with
      production := (update now g).production,
      industries := (mapRes (fun ind r => updateIndustry now' ind r)
        (update now g).industries (update now g).resources).1,
      resources := (mapRes (fun ind r => updateIndustry now' ind r)
        (update now g).industries (update now g).resources).2 } : GameState) = update now g
  rw [h2]

theorem C9_update_stable_witness :
    update 5 (update 10 gAuto) = update 10 gAuto :=
  C9_update_stable gAuto 10 5 (by omega) (by simp only [noChain]; decide) (by decide)

end GoGame
